import Mathlib

/-!
# cheol: line-ending normalisation

A shallow embedding of `main.go` (package `main` of judwhite/cheol) together with
the parts of the Go standard library whose behaviour decides what the program
does: `bufio.Reader.ReadLine`, `bufio.Writer`, and a small file-system model.

* Byte strings (`[]byte`, `string`) are lists of byte values.
* `bufio.Reader` is modelled at the level of the byte stream it hands out: the
  buffer size is kept (it decides when `ReadLine` reports `isPrefix`), the
  buffer indices are not.
* `log.Fatal` is the outcome `Outcome.fatal`, carrying the state the process
  leaves behind.
-/

namespace Cheol

/-- Go byte strings: the elements are byte values. -/
abbrev Bytes := List Nat

/-- The byte `'\r'`. -/
abbrev CR : Nat := 13

/-- The byte `'\n'`. -/
abbrev LF : Nat := 10

/-- The bytes of an ASCII string literal. -/
def bytesOf (s : String) : Bytes := s.toList.map Char.toNat

/-- Go `error` values that occur in the program. -/
inductive GoError where
  | EOF
  | ErrBufferFull
  | ENOENT
  | EEXIST
  | ErrInputOutput
  | ENOSPC
  | ENOTDIR
  | EACCES
  deriving DecidableEq, Repr

/-! ## bufio.Reader -/

/-- What the underlying file yields next: a byte, or a read that fails once with
an error other than end-of-file. The end of the list is end-of-file. -/
inductive Item where
  | byte (b : Nat)
  | fault (e : GoError)
  deriving DecidableEq, Repr

/-- A `bufio.Reader`: `size` is `len(b.buf)`, `src` is everything not yet handed
out (buffered or still in the file). -/
structure Reader where
  size : Nat
  src : List Item
  deriving DecidableEq, Repr

/-- Result of `ReadSlice`. -/
structure Slice where
  line : Bytes
  rest : List Item
  err : Option GoError
  deriving DecidableEq, Repr

/-- `bufio.Reader.ReadSlice('\n')` with room for `n` more bytes in the buffer:
the bytes up to and including the first LF; or the bytes before a failing read
with that error; or the bytes before end-of-file with `io.EOF`; or, once the
buffer is full, the whole buffer with `ErrBufferFull`. -/
def readSlice : Nat → List Item → Slice
  | 0, src => ⟨[], src, some .ErrBufferFull⟩
  | _ + 1, [] => ⟨[], [], some .EOF⟩
  | _ + 1, .fault e :: rest => ⟨[], rest, some e⟩
  | n + 1, .byte b :: rest =>
      if b = LF then ⟨[LF], rest, none⟩
      else ⟨b :: (readSlice n rest).line, (readSlice n rest).rest, (readSlice n rest).err⟩

/-- The end of `ReadLine`: `line[:len(line)-drop]` when the slice ends in LF,
with `drop = 2` when the byte before the LF is CR. -/
def dropEOL (line : Bytes) : Bytes :=
  if line.getLast? = some LF then
    if 1 < line.length ∧ line.get? (line.length - 2) = some CR then
      line.take (line.length - 2)
    else line.take (line.length - 1)
  else line

/-- Result of `ReadLine`: `(line, isPrefix, err)` and the reader afterwards. -/
structure Line where
  line : Bytes
  isPrefix : Bool
  err : Option GoError
  r : Reader
  deriving DecidableEq, Repr

/-- `bufio.Reader.ReadLine`. -/
def Reader.ReadLine (b : Reader) : Line :=
  let s := readSlice b.size b.src
  if s.err = some .ErrBufferFull then
    -- "\r\n" may straddle the buffer: put the '\r' back
    if s.line.getLast? = some CR then
      ⟨s.line.dropLast, true, none, ⟨b.size, .byte CR :: s.rest⟩⟩
    else ⟨s.line, true, none, ⟨b.size, s.rest⟩⟩
  else if s.line.length = 0 then
    ⟨[], false, s.err, ⟨b.size, s.rest⟩⟩
  else
    ⟨dropEOL s.line, false, none, ⟨b.size, s.rest⟩⟩

/-- The bytes one call of the underlying `Read` delivers: at most `n`, stopping
at a failing read or at end-of-file. -/
def takeBytes : Nat → List Item → Bytes × List Item
  | 0, src => ([], src)
  | _ + 1, [] => ([], [])
  | _ + 1, .fault e :: rest => ([], .fault e :: rest)
  | n + 1, .byte b :: rest => (b :: (takeBytes n rest).1, (takeBytes n rest).2)

/-- `bufio.Reader.Read(p)` on a fresh reader, `n = len(p)`, `0 < n < size`: one
read of the underlying file into the buffer, then a copy of at most `n` bytes.
Returns the bytes copied and the error. -/
def Reader.Read (b : Reader) (n : Nat) : Bytes × Option GoError :=
  match b.src with
  | [] => ([], some .EOF)
  | .fault e :: _ => ([], some e)
  | .byte _ :: _ => ((takeBytes (min n b.size) b.src).1, none)

/-- The constant `defaultBufSize` of package bufio. -/
def defaultBufSize : Nat := 4096

/-- `bufio.NewReader`. -/
def NewReader (src : List Item) : Reader := ⟨defaultBufSize, src⟩

/-! ## bufio.Writer -/

/-- A `bufio.Writer` on a file: `buf` is `b.buf[0:b.n]`, `err` the sticky
`b.err`, `out` the bytes that reached the file, `space` the number of bytes the
file can take before a write fails with `ENOSPC` (`none`: writes never fail). -/
structure Writer where
  size : Nat
  buf : Bytes
  err : Option GoError
  out : Bytes
  space : Option Nat
  deriving DecidableEq, Repr

/-- `bufio.NewWriter` on an empty file. -/
def NewWriter (space : Option Nat) : Writer := ⟨defaultBufSize, [], none, [], space⟩

/-- `b.Available()`. -/
def Writer.Available (b : Writer) : Nat := b.size - b.buf.length

/-- How many of the bytes `p` a `Write` on the file accepts. -/
def Writer.room (b : Writer) (p : Bytes) : Nat :=
  match b.space with
  | none => p.length
  | some q => min p.length (q - b.out.length)

/-- `b.wr.Write(p)`: the file takes what there is room for and reports `ENOSPC`
when that is not everything. Returns the count, the error and the writer with
the file extended. -/
def Writer.fileWrite (b : Writer) (p : Bytes) : Nat × Option GoError × Writer :=
  (b.room p, if b.room p < p.length then some .ENOSPC else none,
    { b with out := b.out ++ p.take (b.room p) })

/-- `bufio.Writer.Flush`. -/
def Writer.Flush (b : Writer) : Writer × Option GoError :=
  if b.err ≠ none then (b, b.err)
  else if b.buf.length = 0 then (b, none)
  else
    let w := b.fileWrite b.buf
    match w.2.1 with
    | some e => ({ w.2.2 with buf := b.buf.drop w.1, err := some e }, some e)
    | none => ({ w.2.2 with buf := [] }, none)

/-- One pass of the loop in `bufio.Writer.Write`, entered when
`len(p) > b.Available() && b.err == nil`. Returns the writer and what is left
of `p`. -/
def Writer.writePass (b : Writer) (p : Bytes) : Writer × Bytes :=
  if b.buf.length = 0 then
    -- large write, empty buffer: write directly from p
    let w := b.fileWrite p
    ({ w.2.2 with err := w.2.1 }, p.drop w.1)
  else
    (({ b with buf := b.buf ++ p.take b.Available }).Flush.1, p.drop b.Available)

/-- The loop `for len(p) > b.Available() && b.err == nil` of `Write`, with a
bound on the number of passes. -/
def Writer.writeLoop : Nat → Writer → Bytes → Writer × Bytes
  | 0, b, p => (b, p)
  | k + 1, b, p =>
      if b.Available < p.length ∧ b.err = none then
        Writer.writeLoop k (b.writePass p).1 (b.writePass p).2
      else (b, p)

/-- `bufio.Writer.Write`; the loop body runs at most three times (fill and flush
the buffer, write the rest directly), the bound `len(p) + 2` is never reached. -/
def Writer.Write (b : Writer) (p : Bytes) : Writer × Option GoError :=
  let w := Writer.writeLoop (p.length + 2) b p
  if w.1.err ≠ none then (w.1, w.1.err)
  else ({ w.1 with buf := w.1.buf ++ w.2 }, none)

/-- `bufio.Writer.WriteByte`. -/
def Writer.WriteByte (b : Writer) (c : Nat) : Writer × Option GoError :=
  if b.err ≠ none then (b, b.err)
  else if b.Available ≤ 0 ∧ b.Flush.2 ≠ none then (b.Flush.1, b.Flush.1.err)
  else if b.Available ≤ 0 then ({ b.Flush.1 with buf := b.Flush.1.buf ++ [c] }, none)
  else ({ b with buf := b.buf ++ [c] }, none)

/-! ## The read loop of processFile -/

/-- How the read loop ends: normally with the writer as it stands, or in
`log.Fatal(err)`. -/
inductive LoopEnd where
  | done (w : Writer)
  | fatal (e : GoError) (w : Writer)
  deriving DecidableEq, Repr

/-- The loop at main.go:128-143, entered with the result of the first
`r.ReadLine()`. `none` when the bound on the number of iterations is used up. -/
def readLoop (crlf : Bool) : Nat → Line → Writer → Option LoopEnd
  | 0, _, _ => none
  | fuel + 1, l, w =>
      if l.err = some .EOF then some (.done w)
      else
        let w1 := w.Write l.line
        let w2 :=
          if !l.isPrefix ∧ w1.2 = none then
            if crlf then w1.1.Write [CR, LF] else w1.1.WriteByte LF
          else w1
        match w2.2 with
        | some e => some (.fatal e w2.1)
        | none => readLoop crlf fuel l.r.ReadLine w2.1

/-- The bytes of a file as the items of a read without failing reads. -/
def bytes (content : Bytes) : List Item := content.map Item.byte

/-- The conversion output for `content` when no read or write fails: the bytes
of the temporary file after the loop, `w.Flush()` and `tmp.Close()`. -/
def convert (crlf : Bool) (content : Bytes) : Option Bytes :=
  match readLoop crlf (content.length + 1) (NewReader (bytes content)).ReadLine (NewWriter none) with
  | some (.done w) => some w.Flush.1.out
  | _ => none

/-! ## File system, process state, environment -/

/-- The files of the file system: the bytes stored at each path. -/
abbrev FS := Bytes → Option Bytes

/-- The file system with the file at `p` set to `c` (`none`: no file). -/
def FS.set (fs : FS) (p : Bytes) (c : Option Bytes) : FS :=
  fun q => if q = p then c else fs q

/-- File-system operations that create, rename or remove a file. -/
inductive FsOp where
  | createTemp (path : Bytes)
  | rename (oldpath newpath : Bytes)
  | remove (path : Bytes)
  deriving DecidableEq, Repr

/-- Lines printed on standard output. -/
inductive Report where
  | directory (dir : Bytes)
  | linesChanged (file : Bytes) (n : Int)
  | skipped (file : Bytes)
  deriving DecidableEq, Repr

/-- What the process acts on: the file system, the global `changed`, the lines
printed so far, and the record of the file-system operations performed. -/
structure State where
  fs : FS
  changed : Int
  stdout : List Report
  ops : List FsOp

/-- The command-line flags `crlf`, `lf`, `r`, `v`. -/
structure Config where
  crlf : Bool
  lf : Bool
  recursive : Bool
  verbosity : Int
  deriving DecidableEq, Repr

/-- What the program takes from its surroundings: `http.DetectContentType`, the
random suffix `ioutil.TempFile` appends to its pattern, the reads of a file that
fail (by file and offset), and the room on the device for a temporary file. -/
structure Env where
  DetectContentType : Bytes → Bytes
  tempSuffix : FS → Bytes → Bytes → Bytes
  readFault : Bytes → Nat → Option GoError
  space : Bytes → Option Nat

/-- How a call ends: it returns, or `log.Fatal` ends the process, or (in the
model only) an iteration bound was used up. -/
inductive Outcome where
  | ok (st : State)
  | fatal (e : GoError) (st : State)
  | hang

/-- `fmt.Printf` of one line. -/
def State.print (st : State) (r : Report) : State := { st with stdout := st.stdout ++ [r] }

/-- `filepath.Join(dir, name)` for a clean `dir` and a plain file name. -/
def Join (dir name : Bytes) : Bytes := dir ++ 47 :: name

/-- `strings.HasPrefix`. -/
def HasPrefix (s pre : Bytes) : Bool := pre.isPrefixOf s

/-- The items a reader of the file at `path` meets from offset `i` on: the
bytes, with the failing reads of the environment put in front of their offset. -/
def stream (fault : Nat → Option GoError) : Nat → Bytes → List Item
  | i, [] => match fault i with
    | some e => [.fault e]
    | none => []
  | i, b :: rest => match fault i with
    | some e => .fault e :: .byte b :: stream fault (i + 1) rest
    | none => .byte b :: stream fault (i + 1) rest

/-- The path of the file `ioutil.TempFile(dir, prefix)` settles on: `prefix`
plus a random suffix, in `dir`. -/
def tempPath (env : Env) (fs : FS) (dir pre : Bytes) : Bytes :=
  Join dir (pre ++ env.tempSuffix fs dir pre)

/-- `ioutil.TempFile(dir, prefix)`: a new empty file at `tempPath`; an error when
no unused name is found. Returns its path. -/
def TempFile (env : Env) (st : State) (dir pre : Bytes) : Except GoError (Bytes × State) :=
  if st.fs (tempPath env st.fs dir pre) = none then
    .ok (tempPath env st.fs dir pre,
      { st with fs := st.fs.set (tempPath env st.fs dir pre) (some []),
                ops := st.ops ++ [.createTemp (tempPath env st.fs dir pre)] })
  else .error .EEXIST

/-- `os.Remove`. -/
def Remove (st : State) (path : Bytes) : Except GoError State :=
  if st.fs path = none then .error .ENOENT
  else .ok { st with fs := st.fs.set path none, ops := st.ops ++ [.remove path] }

/-- `os.Rename`. -/
def Rename (st : State) (oldpath newpath : Bytes) : Except GoError State :=
  if st.fs oldpath = none then .error .ENOENT
  else .ok { st with fs := (st.fs.set newpath (st.fs oldpath)).set oldpath none,
                     ops := st.ops ++ [.rename oldpath newpath] }

/-- The pattern `x, err := f(); if err != nil { log.Fatal(err) }`. -/
def orFatal {α : Type} (st : State) (r : Except GoError α) (k : α → Outcome) : Outcome :=
  match r with
  | .error e => .fatal e st
  | .ok a => k a

/-- `os.Stat(path)`, of which only `Size()` is used. -/
def statSize (st : State) (path : Bytes) : Except GoError Int :=
  match st.fs path with
  | none => .error .ENOENT
  | some c => .ok c.length

/-- The function `abs` (main.go:199-204). -/
def abs (a : Int) : Int := if a < 0 then -a else a

/-! ## processFile -/

/-- The second half of `processFile` (main.go:148-191): compare the sizes of the
original and the temporary file, then replace the original or drop the
temporary file. -/
def replaceIfChanged (cfg : Config) (env : Env) (st : State)
    (dir shortFilename fullFilename tmp : Bytes) : Outcome :=
  orFatal st (statSize st fullFilename) fun size1 =>
  orFatal st (statSize st tmp) fun size2 =>
  let diff := size1 - size2
  if diff ≠ 0 then
    orFatal st (TempFile env st dir shortFilename) fun t2 =>
    orFatal t2.2 (Remove t2.2 t2.1) fun sa =>
    orFatal sa (Rename sa fullFilename t2.1) fun sb =>
    orFatal sb (Rename sb tmp fullFilename) fun sc =>
    orFatal sc (Remove sc t2.1) fun sd =>
    let se := if 1 ≤ cfg.verbosity then sd.print (.linesChanged fullFilename (abs diff)) else sd
    .ok { se with changed := se.changed + 1 }
  else
    orFatal st (Remove st tmp) fun sa =>
    .ok (if cfg.verbosity = 2 then sa.print (.linesChanged fullFilename (abs diff)) else sa)

/-- The function `processFile` (main.go:95-197). -/
def processFile (cfg : Config) (env : Env) (st : State) (dir shortFilename : Bytes) : Outcome :=
  let fullFilename := Join dir shortFilename
  match st.fs fullFilename with
  | none => .fatal .ENOENT st
  | some content =>
    let src := stream (env.readFault fullFilename) 0 content
    let rd := (NewReader src).Read 512
    match rd.2 with
    | some e => .fatal e st
    | none =>
      let contentType := env.DetectContentType rd.1
      if HasPrefix contentType (bytesOf "text/") then
        orFatal st (TempFile env st dir shortFilename) fun t =>
        match readLoop cfg.crlf (src.length + 1) (NewReader src).ReadLine
            (NewWriter (env.space t.1)) with
        | none => .hang
        | some (.fatal e w) => .fatal e { t.2 with fs := t.2.fs.set t.1 (some w.out) }
        | some (.done w) =>
          replaceIfChanged cfg env { t.2 with fs := t.2.fs.set t.1 (some w.Flush.1.out) }
            dir shortFilename fullFilename t.1
      else
        .ok (if cfg.verbosity = 2 then st.print (.skipped fullFilename) else st)

/-! ## Directory traversal -/

/-- A directory entry as `ioutil.ReadDir` reports it: a regular file; a
directory, with the entries `ReadDir` reports for it in turn; a non-directory
that is not a regular file (symbolic link, device, pipe); or a directory on
which `ReadDir` fails with `err`. -/
inductive Entry where
  | file (name : Bytes)
  | dir (name : Bytes) (entries : List Entry)
  | special (name : Bytes)
  | unreadable (name : Bytes) (err : GoError)
  deriving Repr

/-- `fi.Name()`. -/
def Entry.Name : Entry → Bytes
  | .file name => name
  | .dir name _ => name
  | .special name => name
  | .unreadable name _ => name

/-- `fi.IsDir()`. -/
def Entry.IsDir : Entry → Bool
  | .file _ => false
  | .dir _ _ => true
  | .special _ => false
  | .unreadable _ _ => true

/-- `ioutil.ReadDir` on the path of the entry. -/
def Entry.ReadDir : Entry → Except GoError (List Entry)
  | .file _ => .error .ENOTDIR
  | .dir _ es => .ok es
  | .special _ => .error .ENOTDIR
  | .unreadable _ e => .error e

/-- Go's `<` on strings: bytewise lexicographic order. -/
def stringLess : Bytes → Bytes → Bool
  | [], [] => false
  | [], _ :: _ => true
  | _ :: _, [] => false
  | a :: s, b :: t => if a < b then true else if b < a then false else stringLess s t

/-- The method `FileInfos.Less` (main.go:59-65) on the two elements
`a, b := fis[i], fis[j]`. -/
def FileInfos.Less (a b : Entry) : Bool :=
  if a.IsDir && !b.IsDir then true
  else stringLess a.Name b.Name

/-- The inner loop of the library's insertion sort: `x` moves left past every
neighbour it is `Less` than (`left` lists the neighbours nearest first). -/
def insertLeft (x : Entry) : List Entry → List Entry
  | [] => [x]
  | y :: left => if FileInfos.Less x y then y :: insertLeft x left else x :: y :: left

/-- The outer loop of the insertion sort; `left` is the sorted part, reversed. -/
def insertionSort : List Entry → List Entry → List Entry
  | left, [] => left.reverse
  | left, x :: rest => insertionSort (insertLeft x left) rest

/-- `sort.Sort(fis)` as the library runs it on short slices (insertion sort
with `Less`). On longer slices the library uses other algorithms;
`processDirWith` takes the sort as a parameter. -/
def sortSort (fis : List Entry) : List Entry := insertionSort [] fis

/-- Go on with `k` when a call returns; `log.Fatal` ends everything. -/
def Outcome.andThen (o : Outcome) (k : State → Outcome) : Outcome :=
  match o with
  | .ok st => k st
  | .fatal e st => .fatal e st
  | .hang => .hang

/-- The loop `for _, fi := range fis` of `processDir` (main.go:79-92); `recurse`
is the recursive call `processDir(subdir)`, given what `ReadDir` will return for
`subdir`; `pf` is the call of `processFile`. -/
def rangeLoop (cfg : Config) (pf : State → Bytes → Bytes → Outcome)
    (recurse : Bytes → Except GoError (List Entry) → State → Outcome) (dir : Bytes) :
    List Entry → State → Outcome
  | [], st => .ok st
  | fi :: rest, st =>
      if fi.IsDir then
        if cfg.recursive then
          if HasPrefix fi.Name (bytesOf ".") then rangeLoop cfg pf recurse dir rest st
          else
            (recurse (Join dir fi.Name) fi.ReadDir st).andThen
              fun st1 => rangeLoop cfg pf recurse dir rest st1
        else rangeLoop cfg pf recurse dir rest st
      else
        (pf st dir fi.Name).andThen fun st1 => rangeLoop cfg pf recurse dir rest st1

/-- The function `processDir` (main.go:67-93) on a directory `dir` for which
`ioutil.ReadDir` returns `listing` (the entries, or an error, which is fatal),
with the sort and the call of `processFile` as parameters and a bound on the
depth of the recursion. -/
def processDirWith (cfg : Config) (sortFn : List Entry → List Entry)
    (pf : State → Bytes → Bytes → Outcome) :
    Nat → Bytes → Except GoError (List Entry) → State → Outcome
  | 0, _, _, _ => .hang
  | fuel + 1, dir, listing, st =>
      match listing with
      | .error e => .fatal e (if cfg.verbosity = 2 then st.print (.directory dir) else st)
      | .ok entries =>
        rangeLoop cfg pf (processDirWith cfg sortFn pf fuel) dir (sortFn entries)
          (if cfg.verbosity = 2 then st.print (.directory dir) else st)

/-- The function `processDir` of the program: `sort.Sort` and `processFile`. -/
def processDir (cfg : Config) (env : Env) :
    Nat → Bytes → Except GoError (List Entry) → State → Outcome :=
  processDirWith cfg sortSort (processFile cfg env)

/-! ## Notions used in the statements -/

/-- The line `ReadLine` returns for the raw line `l` (without its LF): one
trailing CR is dropped. -/
def stripCR (l : Bytes) : Bytes := if l.getLast? = some CR then l.dropLast else l

/-- The writer has met no error and writes to a file that never fills up. -/
def Writer.Healthy (w : Writer) : Prop := w.err = none ∧ w.space = none

/-- Everything written so far: the bytes in the file and the bytes buffered. -/
def Writer.content (w : Writer) : Bytes := w.out ++ w.buf

/-- The lines `ls`, each followed by `term`. -/
def unlines (term : Bytes) : List Bytes → Bytes
  | [] => []
  | l :: ls => l ++ term ++ unlines term ls

/-- The terminator the loop writes after a line. -/
def terminator (crlf : Bool) : Bytes := if crlf then [CR, LF] else [LF]

/-- The shape of the loop's output `o` on the input `s`: `s` is a sequence of
LF-terminated lines `ls` followed by an unterminated rest `r`; `o` is the lines
without one trailing CR, each followed by `term`, then `r`, then `t`, which is
`term` or nothing (nothing when `r` is empty). -/
def Converted (term s o : Bytes) : Prop :=
  ∃ (ls : List Bytes) (r t : Bytes),
    s = unlines [LF] ls ++ r ∧ (∀ l ∈ ls, LF ∉ l) ∧ LF ∉ r ∧
    (t = [] ∨ (t = term ∧ r ≠ [])) ∧
    o = unlines term (ls.map stripCR) ++ (r ++ t)

/-- Every LF in `o` is immediately preceded by CR. -/
def LFPreceded (o : Bytes) : Prop :=
  ∀ pre post : Bytes, o = pre ++ LF :: post → pre.getLast? = some CR

/-- No read of a file fails and no temporary file runs out of room. -/
def Env.NoFaults (env : Env) : Prop :=
  (∀ p i, env.readFault p i = none) ∧ (∀ p, env.space p = none)

/-- The path of the temporary file `processFile` writes the conversion to. -/
def tmp1 (env : Env) (st : State) (dir name : Bytes) : Bytes :=
  tempPath env st.fs dir name

/-- The path of the second temporary file, created while the first holds `o`. -/
def tmp2 (env : Env) (st : State) (dir name o : Bytes) : Bytes :=
  tempPath env (st.fs.set (tmp1 env st dir name) (some o)) dir name

/-- The result of the sniffing read `r.Read(buf)` (main.go:103-104) on the file
at `path` with content `c`. -/
def sniff (env : Env) (path c : Bytes) : Bytes × Option GoError :=
  (NewReader (stream (env.readFault path) 0 c)).Read 512

/-- The entries of a listing; none when `ReadDir` fails. -/
def listed : Except GoError (List Entry) → List Entry
  | .ok es => es
  | .error _ => []

mutual
/-- The non-directory entries at or below an entry: the names of the
directories on the way (below the directory that lists the entry) and the name
of the entry. A directory that cannot be read shows none. -/
def filesOf : Entry → List (List Bytes × Bytes)
  | .file name => [([], name)]
  | .dir name es => (filesIn es).map fun f => (name :: f.1, f.2)
  | .special name => [([], name)]
  | .unreadable _ _ => []
/-- The non-directory entries at or below the entries of a directory. -/
def filesIn : List Entry → List (List Bytes × Bytes)
  | [] => []
  | e :: es => filesOf e ++ filesIn es
end

mutual
/-- The number of directory levels at and below an entry. -/
def depthOf : Entry → Nat
  | .file _ => 0
  | .dir _ es => depthIn es + 1
  | .special _ => 0
  | .unreadable _ _ => 1
/-- The number of directory levels below a directory with these entries. -/
def depthIn : List Entry → Nat
  | [] => 0
  | e :: es => max (depthOf e) (depthIn es)
end

/-- The directory name begins with a dot. -/
def hidden (name : Bytes) : Bool := HasPrefix name (bytesOf ".")

/-- A file may be reached: with the recursion flag, when no directory on the way
is hidden; without it, when the file lies in the root directory itself. -/
def allowed (recursive : Bool) (f : List Bytes × Bytes) : Bool :=
  if recursive then f.1.all fun d => !hidden d else f.1.isEmpty

/-- The directory reached from `root` through the directories `ds`. -/
def joinAll (root : Bytes) : List Bytes → Bytes
  | [] => root
  | d :: ds => joinAll (Join root d) ds

/-- The calls `processFile(dir, name)` the specification asks for: one for every
file that may be reached. -/
def expectedCalls (recursive : Bool) (root : Bytes) (entries : List Entry) :
    List (Bytes × Bytes) :=
  ((filesIn entries).filter (allowed recursive)).map fun f => (joinAll root f.1, f.2)

/-- What `processDir` does, in order: enter a directory, call `processFile`, or
end the process because `ReadDir` failed. -/
inductive Step where
  | enter (dir : Bytes)
  | file (dir name : Bytes)
  | abort (e : GoError)
  deriving DecidableEq, Repr

/-- The steps carried out one after the other; a call of `processFile` that
does not return, or a failed `ReadDir`, ends the run. -/
def runSteps (cfg : Config) (pf : State → Bytes → Bytes → Outcome) :
    List Step → State → Outcome
  | [], st => .ok st
  | .enter d :: rest, st =>
      runSteps cfg pf rest (if cfg.verbosity = 2 then st.print (.directory d) else st)
  | .file d n :: rest, st => (pf st d n).andThen fun st1 => runSteps cfg pf rest st1
  | .abort e :: _, st => .fatal e st

/-- The calls of `processFile` among the steps. -/
def stepFiles : List Step → List (Bytes × Bytes)
  | [] => []
  | .enter _ :: rest => stepFiles rest
  | .file d n :: rest => (d, n) :: stepFiles rest
  | .abort _ :: rest => stepFiles rest

/-- The calls of `processFile` that `runSteps` makes: those of the steps, up
to and including the first call that does not return, and none after a failed
`ReadDir`. -/
def callsMade (cfg : Config) (pf : State → Bytes → Bytes → Outcome) :
    List Step → State → List (Bytes × Bytes)
  | [], _ => []
  | .enter d :: rest, st =>
      callsMade cfg pf rest (if cfg.verbosity = 2 then st.print (.directory d) else st)
  | .file d n :: rest, st =>
      (d, n) :: match pf st d n with
        | .ok st1 => callsMade cfg pf rest st1
        | _ => []
  | .abort _ :: _, _ => []

/-- The calls expected for one entry of the directory `dir`. -/
def expectedOf (recursive : Bool) (dir : Bytes) (e : Entry) : List (Bytes × Bytes) :=
  ((filesOf e).filter (allowed recursive)).map fun f => (joinAll dir f.1, f.2)

/-! ## Concrete files, environments and states -/

/-- A stand-in for `http.DetectContentType`: data with a NUL byte is
`application/octet-stream`, other data is `text/plain`. -/
def sniffNul (data : Bytes) : Bytes :=
  if 0 ∈ data then bytesOf "application/octet-stream" else bytesOf "text/plain; charset=utf-8"

/-- An environment in which nothing fails; `TempFile` appends `0` to the
pattern, or `1` when that name is taken. -/
def env0 : Env where
  DetectContentType := sniffNul
  tempSuffix := fun fs dir pre => if fs (Join dir (pre ++ [48])) = none then [48] else [49]
  readFault := fun _ _ => none
  space := fun _ => none

/-- The environment `env0` with one failing read (`EIO`) at offset 2 of every file. -/
def envReadFault : Env :=
  { env0 with readFault := fun _ i => if i = 2 then some .ErrInputOutput else none }

/-- The environment `env0` with a device that has no room left for the bytes of
a temporary file. -/
def envDiskFull : Env := { env0 with space := fun _ => some 0 }

/-- The file system with the single file `d/name`. -/
def oneFile (name content : Bytes) : FS := FS.set (fun _ => none) (Join (bytesOf "d") name) (some content)

/-- The state at the start of a run on the file system `fs`. -/
def start (fs : FS) : State := ⟨fs, 0, [], []⟩

/-- Flags `--lf` with the default verbosity. -/
def cfgLF : Config := ⟨false, true, false, 1⟩

/-- Flags `--crlf` with the default verbosity. -/
def cfgCRLF : Config := ⟨true, false, false, 1⟩

/-- The state an outcome leaves behind. -/
def Outcome.state? : Outcome → Option State
  | .ok st => some st
  | .fatal _ st => some st
  | .hang => none

/-- The call returned (no `log.Fatal`). -/
def Outcome.returned : Outcome → Bool
  | .ok _ => true
  | _ => false

/-- What an outcome shows of the file at `path`: whether the call returned, the
bytes of the file and the value of `changed`. -/
def Outcome.view (o : Outcome) (path : Bytes) : Bool × Option (Option Bytes) × Option Int :=
  (o.returned, o.state?.map (fun st => st.fs path), o.state?.map (fun st => st.changed))

/-- Flags `--lf -r` with the default verbosity. -/
def cfgRec : Config := ⟨false, true, true, 1⟩

/-- The entries of a directory with two files, a symbolic link, a hidden
directory `.git` and a directory `src` that holds a file and a hidden directory. -/
def sampleTree : List Entry :=
  [.file (bytesOf "b.txt"),
   .dir (bytesOf ".git") [.file (bytesOf "config")],
   .dir (bytesOf "src") [.file (bytesOf "main.go"), .dir (bytesOf ".cache") [.file (bytesOf "x")]],
   .special (bytesOf "link"),
   .file (bytesOf "a.txt")]

/-- The entries of a directory with the two files `e.txt` and `z.txt`. -/
def twoEntries : List Entry := [.file (bytesOf "e.txt"), .file (bytesOf "z.txt")]

/-- The file system with an empty `d/e.txt` and `d/z.txt` holding `"a\r\n"`. -/
def twoFiles : FS := FS.set (oneFile (bytesOf "e.txt") []) (bytesOf "d/z.txt") (some (bytesOf "a\r\n"))

/-- A stand-in for `processFile` that returns after printing the path it was
called with. -/
def notePath (st : State) (dir name : Bytes) : Outcome :=
  .ok (st.print (.skipped (Join dir name)))

/-! ## Facts about the reader on a file whose reads do not fail -/

theorem bytes_cons (b : Nat) (s : Bytes) : bytes (b :: s) = Item.byte b :: bytes s := rfl

theorem bytes_length (s : Bytes) : (bytes s).length = s.length := by
  simp [bytes]

theorem readSlice_bytes_cons (n b : Nat) (s : Bytes) :
    readSlice (n + 1) (bytes (b :: s)) =
      if b = LF then ⟨[LF], bytes s, none⟩
      else ⟨b :: (readSlice n (bytes s)).line, (readSlice n (bytes s)).rest,
            (readSlice n (bytes s)).err⟩ := rfl

theorem readSlice_bytes_nil (n : Nat) : readSlice (n + 1) (bytes []) = ⟨[], [], some .EOF⟩ := rfl

theorem readSlice_zero (src : List Item) : readSlice 0 src = ⟨[], src, some .ErrBufferFull⟩ := by
  cases src <;> rfl

theorem readSlice_line (l rest : Bytes) (n : Nat) (hl : LF ∉ l) (hn : l.length < n) :
    readSlice n (bytes (l ++ LF :: rest)) = ⟨l ++ [LF], bytes rest, none⟩ := by
  induction l generalizing n with
  | nil =>
    obtain ⟨m, rfl⟩ : ∃ m, n = m + 1 := ⟨n - 1, by simp at hn; omega⟩
    rw [List.nil_append, readSlice_bytes_cons, if_pos rfl]; rfl
  | cons a l ih =>
    obtain ⟨m, rfl⟩ : ∃ m, n = m + 1 := ⟨n - 1, by simp at hn; omega⟩
    have ha : a ≠ LF := fun h => hl (by simp [h])
    have hl2 : LF ∉ l := fun h => hl (List.mem_cons_of_mem _ h)
    rw [List.cons_append, readSlice_bytes_cons, if_neg ha, ih m hl2 (by simpa using hn)]
    rfl

theorem readSlice_eof (s : Bytes) (n : Nat) (hs : LF ∉ s) (hn : s.length < n) :
    readSlice n (bytes s) = ⟨s, [], some .EOF⟩ := by
  induction s generalizing n with
  | nil =>
    obtain ⟨m, rfl⟩ : ∃ m, n = m + 1 := ⟨n - 1, by simp at hn; omega⟩
    rfl
  | cons a l ih =>
    obtain ⟨m, rfl⟩ : ∃ m, n = m + 1 := ⟨n - 1, by simp at hn; omega⟩
    have ha : a ≠ LF := fun h => hs (by simp [h])
    have hl2 : LF ∉ l := fun h => hs (List.mem_cons_of_mem _ h)
    rw [readSlice_bytes_cons, if_neg ha, ih m hl2 (by simpa using hn)]

theorem readSlice_full (p t : Bytes) (hp : LF ∉ p) :
    readSlice p.length (bytes (p ++ t)) = ⟨p, bytes t, some .ErrBufferFull⟩ := by
  induction p with
  | nil => rw [List.nil_append, List.length_nil, readSlice_zero]
  | cons a l ih =>
    have ha : a ≠ LF := fun h => hp (by simp [h])
    have hl2 : LF ∉ l := fun h => hp (List.mem_cons_of_mem _ h)
    rw [List.cons_append, List.length_cons, readSlice_bytes_cons, if_neg ha, ih hl2]

/-- The three ways `ReadSlice` can meet a file: a line end within the buffer,
the end of the file within the buffer, or a full buffer. -/
theorem slice_cases (n : Nat) (s : Bytes) :
    (∃ l rest, s = l ++ LF :: rest ∧ LF ∉ l ∧ l.length < n) ∨
    (LF ∉ s ∧ s.length < n) ∨
    (∃ p t, s = p ++ t ∧ LF ∉ p ∧ p.length = n) := by
  induction n generalizing s with
  | zero => exact Or.inr (Or.inr ⟨[], s, rfl, by simp, rfl⟩)
  | succ n ih =>
    cases s with
    | nil => exact Or.inr (Or.inl ⟨by simp, by simp⟩)
    | cons a s =>
      by_cases ha : a = LF
      · exact Or.inl ⟨[], s, by simp [ha], by simp, by simp⟩
      · rcases ih s with ⟨l, rest, rfl, hl, hn⟩ | ⟨hs, hn⟩ | ⟨p, t, rfl, hp, hn⟩
        · exact Or.inl ⟨a :: l, rest, rfl, by simp [hl, Ne.symm ha], by simpa using hn⟩
        · exact Or.inr (Or.inl ⟨by simp [hs, Ne.symm ha], by simpa using hn⟩)
        · exact Or.inr (Or.inr ⟨a :: p, t, rfl, by simp [hp, Ne.symm ha], by simp [hn]⟩)

theorem snoc_cases (l : Bytes) : l = [] ∨ ∃ l0 a, l = l0 ++ [a] := by
  rcases List.eq_nil_or_concat l with h | ⟨l0, a, h⟩
  · exact Or.inl h
  · exact Or.inr ⟨l0, a, by rw [h, List.concat_eq_append]⟩

theorem dropEOL_line (l : Bytes) : dropEOL (l ++ [LF]) = stripCR l := by
  rcases snoc_cases l with rfl | ⟨l0, a, rfl⟩
  · simp [dropEOL, stripCR]
  · have h1 : (l0 ++ [a] ++ [LF]).getLast? = some LF := by simp
    have h2 : (l0 ++ [a] ++ [LF]).length = l0.length + 2 := by simp
    have h3 : (l0 ++ [a] ++ [LF]).get? l0.length = some a := by
      rw [List.get?_eq_getElem?, List.append_assoc, List.getElem?_append_right (le_refl _)]
      simp
    have h4 : (l0 ++ [a] ++ [LF]).take l0.length = l0 := by
      simp [List.take_append_eq_append_take]
    have h5 : (l0 ++ [a] ++ [LF]).take (l0.length + 1) = l0 ++ [a] := by
      simp [List.take_append_eq_append_take]
    have h6 : (l0 ++ [a]).getLast? = some a := by simp
    have h7 : l0.length + 2 - 1 = l0.length + 1 := by omega
    unfold dropEOL stripCR
    rw [if_pos h1, h2, h6, Nat.add_sub_cancel, h3, h4, h7, h5, List.dropLast_concat]
    by_cases ha : a = CR
    · simp [ha]
    · simp [ha]

theorem dropEOL_noLF (s : Bytes) (hs : LF ∉ s) : dropEOL s = s := by
  have : s.getLast? ≠ some LF := fun h => hs (List.mem_of_getLast?_eq_some h)
  simp [dropEOL, this]

theorem bytes_nil : bytes [] = [] := rfl

theorem ReadLine_line (B : Nat) (l rest : Bytes) (hl : LF ∉ l) (hn : l.length < B) :
    Reader.ReadLine ⟨B, bytes (l ++ LF :: rest)⟩ = ⟨stripCR l, false, none, ⟨B, bytes rest⟩⟩ := by
  simp [Reader.ReadLine, readSlice_line l rest B hl hn, dropEOL_line]

theorem ReadLine_nil (B : Nat) (hB : 0 < B) :
    Reader.ReadLine ⟨B, bytes []⟩ = ⟨[], false, some .EOF, ⟨B, []⟩⟩ := by
  simp [Reader.ReadLine, readSlice_eof [] B (by simp) (by simpa using hB)]

theorem ReadLine_last (B : Nat) (s : Bytes) (hs : LF ∉ s) (hn : s.length < B) (hne : s ≠ []) :
    Reader.ReadLine ⟨B, bytes s⟩ = ⟨s, false, none, ⟨B, bytes []⟩⟩ := by
  simp [Reader.ReadLine, readSlice_eof s B hs hn, dropEOL_noLF s hs, hne, bytes_nil]

theorem ReadLine_full (p t : Bytes) (hp : LF ∉ p) (hcr : p.getLast? ≠ some CR) :
    Reader.ReadLine ⟨p.length, bytes (p ++ t)⟩ = ⟨p, true, none, ⟨p.length, bytes t⟩⟩ := by
  simp [Reader.ReadLine, readSlice_full p t hp, hcr]

theorem ReadLine_full_cr (p t : Bytes) (hp : LF ∉ p) (hcr : p.getLast? = some CR) :
    Reader.ReadLine ⟨p.length, bytes (p ++ t)⟩
      = ⟨p.dropLast, true, none, ⟨p.length, bytes (CR :: t)⟩⟩ := by
  simp [Reader.ReadLine, readSlice_full p t hp, hcr, bytes_cons]

/-! ## Facts about the writer when no write fails -/

theorem Flush_healthy (w : Writer) (h : w.Healthy) :
    w.Flush.2 = none ∧ w.Flush.1.Healthy ∧ w.Flush.1.out = w.content ∧ w.Flush.1.buf = [] := by
  obtain ⟨h1, h2⟩ := h
  by_cases hb : w.buf.length = 0
  · have hb2 : w.buf = [] := List.length_eq_zero.mp hb
    simp [Writer.Flush, h1, h2, hb2, Writer.Healthy, Writer.content]
  · simp [Writer.Flush, h1, h2, hb, Writer.Healthy, Writer.content, Writer.fileWrite, Writer.room]

theorem writePass_healthy (w : Writer) (p : Bytes) (h : w.Healthy) :
    (w.writePass p).1.Healthy ∧ (w.writePass p).1.content ++ (w.writePass p).2 = w.content ++ p := by
  by_cases hb : w.buf.length = 0
  · have hb2 : w.buf = [] := List.length_eq_zero.mp hb
    obtain ⟨h1, h2⟩ := h
    simp [Writer.writePass, hb2, h2, Writer.Healthy, Writer.content, Writer.fileWrite, Writer.room]
  · have hh : ({ w with buf := w.buf ++ p.take w.Available } : Writer).Healthy := h
    obtain ⟨-, f2, f3, f4⟩ := Flush_healthy _ hh
    simp only [Writer.writePass, hb, if_false]
    refine ⟨f2, ?_⟩
    simp only [Writer.content, f3, f4, List.append_nil, List.append_assoc, List.take_append_drop]

theorem writeLoop_healthy (k : Nat) (w : Writer) (p : Bytes) (h : w.Healthy) :
    (Writer.writeLoop k w p).1.Healthy ∧
      (Writer.writeLoop k w p).1.content ++ (Writer.writeLoop k w p).2 = w.content ++ p := by
  induction k generalizing w p with
  | zero => exact ⟨h, rfl⟩
  | succ k ih =>
    unfold Writer.writeLoop
    split
    · obtain ⟨g1, g2⟩ := writePass_healthy w p h
      obtain ⟨i1, i2⟩ := ih (w.writePass p).1 (w.writePass p).2 g1
      exact ⟨i1, i2.trans g2⟩
    · exact ⟨h, rfl⟩

theorem Write_healthy (w : Writer) (p : Bytes) (h : w.Healthy) :
    (w.Write p).2 = none ∧ (w.Write p).1.Healthy ∧ (w.Write p).1.content = w.content ++ p := by
  obtain ⟨g1, g2⟩ := writeLoop_healthy (p.length + 2) w p h
  have e : (Writer.writeLoop (p.length + 2) w p).1.err = none := g1.1
  simp only [Writer.Write, e, ne_eq, not_true_eq_false, if_false]
  refine ⟨trivial, ⟨rfl, g1.2⟩, ?_⟩
  rw [← g2]
  simp [Writer.content]

theorem WriteByte_healthy (w : Writer) (c : Nat) (h : w.Healthy) :
    (w.WriteByte c).2 = none ∧ (w.WriteByte c).1.Healthy ∧
      (w.WriteByte c).1.content = w.content ++ [c] := by
  obtain ⟨f1, f2, f3, f4⟩ := Flush_healthy w h
  have e : w.err = none := h.1
  by_cases ha : w.Available ≤ 0
  · simp only [Writer.WriteByte, e, ne_eq, not_true_eq_false, if_false, f1, and_false, ha, if_true]
    refine ⟨trivial, f2, ?_⟩
    simp [Writer.content, f3, f4]
  · simp only [Writer.WriteByte, e, ne_eq, not_true_eq_false, if_false, ha, false_and]
    refine ⟨trivial, ⟨rfl, h.2⟩, ?_⟩
    simp [Writer.content]

theorem NewWriter_healthy : (NewWriter none).Healthy ∧ (NewWriter none).content = [] :=
  ⟨⟨rfl, rfl⟩, rfl⟩

/-! ## What the read loop writes -/

theorem conv_nil (term : Bytes) : Converted term [] [] :=
  ⟨[], [], [], rfl, by simp, by simp, Or.inl rfl, rfl⟩

theorem conv_line (term l rest o : Bytes) (hl : LF ∉ l) (h : Converted term rest o) :
    Converted term (l ++ LF :: rest) (stripCR l ++ term ++ o) := by
  obtain ⟨ls, r, t, hs, hls, hr, ht, ho⟩ := h
  refine ⟨l :: ls, r, t, ?_, ?_, hr, ht, ?_⟩
  · simp [unlines, hs]
  · intro x hx
    rcases List.mem_cons.mp hx with rfl | hx
    · exact hl
    · exact hls x hx
  · simp [unlines, ho]

theorem conv_last (term r : Bytes) (hne : r ≠ []) (hr : LF ∉ r) :
    Converted term r (r ++ term) :=
  ⟨[], r, term, rfl, by simp, hr, Or.inr ⟨rfl, hne⟩, rfl⟩

theorem stripCR_append (p l : Bytes) (hl : l ≠ []) : stripCR (p ++ l) = p ++ stripCR l := by
  rcases snoc_cases l with rfl | ⟨l0, a, rfl⟩
  · exact absurd rfl hl
  · have h1 : (p ++ (l0 ++ [a])).getLast? = some a := by
      rw [← List.append_assoc]; simp
    have h2 : (l0 ++ [a]).getLast? = some a := by simp
    have h3 : (p ++ (l0 ++ [a])).dropLast = p ++ l0 := by
      rw [← List.append_assoc, List.dropLast_concat]
    unfold stripCR
    rw [h1, h2, h3, List.dropLast_concat]
    split <;> rfl

theorem stripCR_noCR (p : Bytes) (h : p.getLast? ≠ some CR) : stripCR p = p := by
  simp [stripCR, h]

theorem conv_prefix (term p s o : Bytes) (h : Converted term s o) (hp : LF ∉ p)
    (hcr : p.getLast? = some CR → s.head? = some CR) :
    Converted term (p ++ s) (p ++ o) := by
  obtain ⟨ls, r, t, hs, hls, hr, ht, ho⟩ := h
  cases ls with
  | nil =>
    refine ⟨[], p ++ r, t, ?_, by simp, ?_, ?_, ?_⟩
    · simp [unlines, hs]
    · simp [hp, hr]
    · rcases ht with ht | ⟨ht, hne⟩
      · exact Or.inl ht
      · exact Or.inr ⟨ht, by simp [hne]⟩
    · simp [unlines, ho]
  | cons l ls =>
    have hl : LF ∉ l := hls l (List.mem_cons_self _ _)
    have hstrip : stripCR (p ++ l) = p ++ stripCR l := by
      by_cases hle : l = []
      · subst hle
        have hh : s.head? = some LF := by simp [hs, unlines]
        have : p.getLast? ≠ some CR := by
          intro h
          have := hcr h
          rw [hh] at this
          exact absurd this (by decide)
        rw [List.append_nil, stripCR_noCR p this]
        simp [stripCR]
      · exact stripCR_append p l hle
    refine ⟨(p ++ l) :: ls, r, t, ?_, ?_, hr, ht, ?_⟩
    · simp [unlines, hs]
    · intro x hx
      rcases List.mem_cons.mp hx with rfl | hx
      · simp [hp, hl]
      · exact hls x (List.mem_cons_of_mem _ hx)
    · simp [unlines, ho, hstrip]

/-- One iteration of the loop on a line read without error, with a healthy
writer: the line is written, followed by the terminator unless `isPrefix`. -/
theorem readLoop_step (crlf : Bool) (fuel : Nat) (l : Line) (w : Writer) (h : w.Healthy)
    (he : l.err = none) :
    ∃ w1 : Writer, w1.Healthy ∧
      w1.content = w.content ++ (l.line ++ if l.isPrefix then [] else terminator crlf) ∧
      readLoop crlf (fuel + 1) l w = readLoop crlf fuel l.r.ReadLine w1 := by
  obtain ⟨a1, a2, a3⟩ := Write_healthy w l.line h
  cases hp : l.isPrefix with
  | true =>
    refine ⟨(w.Write l.line).1, a2, by simp [a3], ?_⟩
    simp [readLoop, he, hp, a1]
  | false =>
    cases crlf with
    | true =>
      obtain ⟨b1, b2, b3⟩ := Write_healthy (w.Write l.line).1 [CR, LF] a2
      refine ⟨((w.Write l.line).1.Write [CR, LF]).1, b2, by simp [b3, a3, terminator], ?_⟩
      simp [readLoop, he, hp, a1, b1]
    | false =>
      obtain ⟨b1, b2, b3⟩ := WriteByte_healthy (w.Write l.line).1 LF a2
      refine ⟨((w.Write l.line).1.WriteByte LF).1, b2, by simp [b3, a3, terminator], ?_⟩
      simp [readLoop, he, hp, a1, b1]

/-- On a file whose reads do not fail and with a healthy writer, the loop ends
normally (given one iteration per byte and one more) and has written an output
of the shape `Converted`. -/
theorem readLoop_bytes (crlf : Bool) (B : Nat) (hB : 2 ≤ B) (s : Bytes) (fuel : Nat)
    (w : Writer) (hf : s.length < fuel) (hw : w.Healthy) :
    ∃ (w1 : Writer) (o : Bytes),
      readLoop crlf fuel (Reader.ReadLine ⟨B, bytes s⟩) w = some (.done w1) ∧
      w1.Healthy ∧ Converted (terminator crlf) s o ∧ w1.content = w.content ++ o := by
  induction' hn : s.length using Nat.strongRecOn with n ih generalizing s fuel w
  obtain ⟨f, rfl⟩ : ∃ f, fuel = f + 1 := ⟨fuel - 1, by omega⟩
  rcases slice_cases B s with ⟨l, rest, rfl, hl, hlB⟩ | ⟨hs, hsB⟩ | ⟨p, t, rfl, hp, hpB⟩
  · -- a line end within the buffer
    rw [ReadLine_line B l rest hl hlB]
    obtain ⟨w1, h1, c1, e1⟩ := readLoop_step crlf f ⟨stripCR l, false, none, ⟨B, bytes rest⟩⟩ w hw rfl
    have hlen : (l ++ LF :: rest).length = l.length + 1 + rest.length := by simp; omega
    obtain ⟨w2, o, r2, h2, c2, e2⟩ :=
      ih rest.length (by omega) rest f w1 (by omega) h1 rfl
    refine ⟨w2, stripCR l ++ terminator crlf ++ o, ?_, h2, conv_line _ l rest o hl c2, ?_⟩
    · rw [e1]; exact r2
    · rw [e2, c1]; simp
  · -- the end of the file within the buffer
    by_cases hne : s = []
    · subst hne
      rw [ReadLine_nil B (by omega)]
      exact ⟨w, [], by simp [readLoop], hw, conv_nil _, by simp⟩
    · rw [ReadLine_last B s hs hsB hne]
      obtain ⟨w1, h1, c1, e1⟩ := readLoop_step crlf f ⟨s, false, none, ⟨B, bytes []⟩⟩ w hw rfl
      have hpos : 0 < s.length := List.length_pos.mpr hne
      obtain ⟨g, rfl⟩ : ∃ g, f = g + 1 := ⟨f - 1, by omega⟩
      refine ⟨w1, s ++ terminator crlf, ?_, h1, conv_last _ s hne hs, ?_⟩
      · rw [e1]
        show readLoop crlf (g + 1) (Reader.ReadLine ⟨B, bytes []⟩) w1 = _
        rw [ReadLine_nil B (by omega)]
        simp [readLoop]
      · rw [c1]; simp
  · -- a full buffer without a line end
    by_cases hcr : p.getLast? = some CR
    · rw [← hpB, ReadLine_full_cr p t hp hcr]
      obtain ⟨w1, h1, c1, e1⟩ :=
        readLoop_step crlf f ⟨p.dropLast, true, none, ⟨p.length, bytes (CR :: t)⟩⟩ w hw rfl
      have hlen : (p ++ t).length = p.length + t.length := by simp
      obtain ⟨w2, o, r2, h2, c2, e2⟩ :=
        ih (CR :: t).length (by simp; omega) (CR :: t) f w1 (by simp; omega) h1 rfl
      obtain ⟨p0, hp0⟩ := List.getLast?_eq_some_iff.mp hcr
      have hp1 : p.dropLast = p0 := by rw [hp0, List.dropLast_concat]
      have hp2 : LF ∉ p0 := fun h => hp (by rw [hp0]; simp [h])
      have hc := conv_prefix (terminator crlf) p0 (CR :: t) o c2 hp2 (fun _ => rfl)
      refine ⟨w2, p0 ++ o, ?_, h2, ?_, ?_⟩
      · rw [e1]
        show readLoop crlf f (Reader.ReadLine ⟨p.length, bytes (CR :: t)⟩) w1 = _
        rw [hpB]; exact r2
      · rw [hp0]; simpa using hc
      · rw [e2, c1, hp1]; simp
    · rw [← hpB, ReadLine_full p t hp hcr]
      obtain ⟨w1, h1, c1, e1⟩ :=
        readLoop_step crlf f ⟨p, true, none, ⟨p.length, bytes t⟩⟩ w hw rfl
      have hlen : (p ++ t).length = p.length + t.length := by simp
      obtain ⟨w2, o, r2, h2, c2, e2⟩ :=
        ih t.length (by omega) t f w1 (by omega) h1 rfl
      have hc := conv_prefix (terminator crlf) p t o c2 hp (fun h => absurd h hcr)
      refine ⟨w2, p ++ o, ?_, h2, hc, ?_⟩
      · rw [e1]
        show readLoop crlf f (Reader.ReadLine ⟨p.length, bytes t⟩) w1 = _
        rw [hpB]; exact r2
      · rw [e2, c1]; simp

/-- The conversion of a file whose reads and writes do not fail produces an
output, and that output has the shape `Converted`. -/
theorem convert_converted (crlf : Bool) (content : Bytes) :
    ∃ o, convert crlf content = some o ∧ Converted (terminator crlf) content o := by
  obtain ⟨w1, o, r, h, c, e⟩ :=
    readLoop_bytes crlf defaultBufSize (by decide) content (content.length + 1)
      (NewWriter none) (Nat.lt_succ_self _) NewWriter_healthy.1
  refine ⟨o, ?_, c⟩
  have r2 : readLoop crlf (content.length + 1) (NewReader (bytes content)).ReadLine
      (NewWriter none) = some (.done w1) := r
  rw [NewWriter_healthy.2, List.nil_append] at e
  simp only [convert, r2]
  rw [(Flush_healthy w1 h).2.2.1, e]

/-! ## The read loop ends -/

theorem readSlice_consumed (n : Nat) (src : List Item) :
    (readSlice n src).rest.length + (readSlice n src).line.length ≤ src.length ∧
    ((readSlice n src).err = some .ErrBufferFull →
      (readSlice n src).line.length = n ∨
      (readSlice n src).rest.length + (readSlice n src).line.length < src.length) := by
  induction n generalizing src with
  | zero => rw [readSlice_zero]; simp
  | succ n ih =>
    cases src with
    | nil => simp [readSlice]
    | cons x src =>
      cases x with
      | fault e => simp [readSlice]
      | byte b =>
        by_cases hb : b = LF
        · simp [readSlice, hb]
        · obtain ⟨h1, h2⟩ := ih src
          simp only [readSlice, hb, if_false, List.length_cons]
          refine ⟨by omega, fun he => ?_⟩
          rcases h2 he with h | h
          · exact Or.inl (by omega)
          · exact Or.inr (by omega)

theorem readSlice_empty_line (n : Nat) (src : List Item)
    (h : (readSlice (n + 1) src).line = []) :
    (readSlice (n + 1) src).err = some .EOF ∨ (readSlice (n + 1) src).rest.length < src.length := by
  cases src with
  | nil => exact Or.inl rfl
  | cons x src =>
    cases x with
    | fault e => exact Or.inr (by simp [readSlice])
    | byte b =>
      by_cases hb : b = LF
      · simp [readSlice, hb] at h
      · simp [readSlice, hb] at h

/-- A call of `ReadLine` that does not report `io.EOF` takes something off the
file (the buffer holds at least two bytes). -/
theorem ReadLine_progress (B : Nat) (hB : 2 ≤ B) (src : List Item)
    (h : (Reader.ReadLine ⟨B, src⟩).err ≠ some .EOF) :
    ∃ rest : List Item, (Reader.ReadLine ⟨B, src⟩).r = ⟨B, rest⟩ ∧ rest.length < src.length := by
  obtain ⟨h1, h2⟩ := readSlice_consumed B src
  obtain ⟨n, rfl⟩ : ∃ n, B = n + 1 := ⟨B - 1, by omega⟩
  have h3 := readSlice_empty_line n src
  unfold Reader.ReadLine at h ⊢
  simp only at h ⊢
  by_cases he : (readSlice (n + 1) src).err = some .ErrBufferFull
  · rw [if_pos he] at h ⊢
    by_cases hc : (readSlice (n + 1) src).line.getLast? = some CR
    · rw [if_pos hc]
      have hpos : 0 < (readSlice (n + 1) src).line.length := by
        cases hl : (readSlice (n + 1) src).line with
        | nil => rw [hl] at hc; cases hc
        | cons a l => simp
      refine ⟨_, rfl, ?_⟩
      rcases h2 he with h4 | h4
      · simp only [List.length_cons]; omega
      · simp only [List.length_cons]; omega
    · rw [if_neg hc]
      refine ⟨_, rfl, ?_⟩
      rcases h2 he with h4 | h4
      · omega
      · omega
  · rw [if_neg he] at h ⊢
    by_cases hz : (readSlice (n + 1) src).line.length = 0
    · rw [if_pos hz] at h ⊢
      refine ⟨_, rfl, ?_⟩
      rcases h3 (List.length_eq_zero.mp hz) with h5 | h5
      · exact absurd h5 h
      · exact h5
    · rw [if_neg hz]
      refine ⟨_, rfl, ?_⟩
      omega

/-- The read loop ends, normally or in `log.Fatal`, within one iteration per
item of the file and one more, whatever reads and writes fail. -/
theorem readLoop_ends (crlf : Bool) (B : Nat) (hB : 2 ≤ B) (src : List Item) (fuel : Nat)
    (w : Writer) (hf : src.length < fuel) :
    ∃ r, readLoop crlf fuel (Reader.ReadLine ⟨B, src⟩) w = some r := by
  induction' hn : src.length using Nat.strongRecOn with n ih generalizing src fuel w
  obtain ⟨f, rfl⟩ : ∃ f, fuel = f + 1 := ⟨fuel - 1, by omega⟩
  by_cases he : (Reader.ReadLine ⟨B, src⟩).err = some .EOF
  · exact ⟨.done w, by simp [readLoop, he]⟩
  · obtain ⟨rest, p1, p2⟩ := ReadLine_progress B hB src he
    simp only [readLoop, he, if_false]
    split
    · exact ⟨_, rfl⟩
    · rw [p1]
      exact ih _ (by omega) _ f _ (by omega) rfl

/-- The outcome `hang` is not an outcome of `processFile`. -/
theorem processFile_no_hang (cfg : Config) (env : Env) (st : State) (dir name : Bytes) :
    processFile cfg env st dir name ≠ .hang := by
  unfold processFile
  simp only
  cases hfs : st.fs (Join dir name) with
  | none => simp
  | some content =>
    simp only
    cases hrd : ((NewReader (stream (env.readFault (Join dir name)) 0 content)).Read 512).2 with
    | some e => simp
    | none =>
      simp only
      split
      · by_cases hfresh : st.fs (tempPath env st.fs dir name) = none
        · obtain ⟨r, hr⟩ := readLoop_ends cfg.crlf defaultBufSize (by decide)
            (stream (env.readFault (Join dir name)) 0 content)
            ((stream (env.readFault (Join dir name)) 0 content).length + 1)
            (NewWriter (env.space (tempPath env st.fs dir name))) (Nat.lt_succ_self _)
          have hr2 : readLoop cfg.crlf
              ((stream (env.readFault (Join dir name)) 0 content).length + 1)
              (NewReader (stream (env.readFault (Join dir name)) 0 content)).ReadLine
              (NewWriter (env.space (tempPath env st.fs dir name))) = some r := hr
          simp only [orFatal, TempFile, hfresh, if_true, hr2]
          cases r with
          | fatal e w => simp
          | done w =>
            simp only [replaceIfChanged, orFatal]
            repeat' split
            all_goals simp
        · simp [orFatal, TempFile, hfresh]
      · simp

/-- The case in which no terminator follows the last line: a file that is one
unterminated line of exactly the size of the buffer (not ending in CR) is read
as a prefix (`isPrefix`), and the next `ReadLine` reports `io.EOF`; the output
is the file itself. -/
theorem full_buffer_line (crlf : Bool) (p : Bytes) (hp : LF ∉ p)
    (hlen : p.length = defaultBufSize) (hcr : p.getLast? ≠ some CR) :
    convert crlf p = some p := by
  have h1 : (NewReader (bytes p)).ReadLine = ⟨p, true, none, ⟨p.length, bytes []⟩⟩ := by
    have h := ReadLine_full p [] hp hcr
    rw [List.append_nil] at h
    rw [← h, NewReader, hlen]
  obtain ⟨w1, k1, c1, e1⟩ := readLoop_step crlf p.length
    ⟨p, true, none, ⟨p.length, bytes []⟩⟩ (NewWriter none) NewWriter_healthy.1 rfl
  have h2 : readLoop crlf p.length (Reader.ReadLine ⟨p.length, bytes []⟩) w1
      = some (.done w1) := by
    rw [ReadLine_nil p.length (by rw [hlen]; decide), hlen]
    rfl
  have h3 : readLoop crlf (p.length + 1) (NewReader (bytes p)).ReadLine (NewWriter none)
      = some (.done w1) := by
    rw [h1, e1]; exact h2
  simp only [convert, h3]
  rw [(Flush_healthy w1 k1).2.2.1, c1, NewWriter_healthy.2]
  simp

/-! ## Consequences of the shape of the output -/

theorem split_unique (l l1 x x1 : Bytes) (h : l ++ LF :: x = l1 ++ LF :: x1)
    (hl : LF ∉ l) (hl1 : LF ∉ l1) : l = l1 ∧ x = x1 := by
  induction l generalizing l1 with
  | nil =>
    cases l1 with
    | nil => simpa using h
    | cons b l1 =>
      simp at h
      exact absurd (by simp [h.1]) hl1
  | cons a l ih =>
    cases l1 with
    | nil =>
      simp at h
      exact absurd (by simp [h.1]) hl
    | cons b l1 =>
      simp only [List.cons_append, List.cons.injEq] at h
      obtain ⟨e1, e2⟩ := ih l1 h.2 (fun m => hl (List.mem_cons_of_mem _ m))
        (fun m => hl1 (List.mem_cons_of_mem _ m))
      exact ⟨by rw [h.1, e1], e2⟩

/-- A file splits in one way only into LF-terminated lines and a rest. -/
theorem unlines_unique (ls ls1 : List Bytes) (r r1 : Bytes)
    (h : unlines [LF] ls ++ r = unlines [LF] ls1 ++ r1)
    (hls : ∀ l ∈ ls, LF ∉ l) (hls1 : ∀ l ∈ ls1, LF ∉ l) (hr : LF ∉ r) (hr1 : LF ∉ r1) :
    ls = ls1 ∧ r = r1 := by
  induction ls generalizing ls1 with
  | nil =>
    cases ls1 with
    | nil => exact ⟨rfl, by simpa [unlines] using h⟩
    | cons l1 ls1 =>
      exfalso
      apply hr
      rw [show r = unlines [LF] (l1 :: ls1) ++ r1 by simpa [unlines] using h]
      simp [unlines]
  | cons l ls ih =>
    cases ls1 with
    | nil =>
      exfalso
      apply hr1
      rw [show r1 = unlines [LF] (l :: ls) ++ r by simpa [unlines] using h.symm]
      simp [unlines]
    | cons l1 ls1 =>
      have h2 : l ++ LF :: (unlines [LF] ls ++ r) = l1 ++ LF :: (unlines [LF] ls1 ++ r1) := by
        simpa [unlines] using h
      obtain ⟨e1, e2⟩ := split_unique _ _ _ _ h2 (hls l (List.mem_cons_self _ _))
        (hls1 l1 (List.mem_cons_self _ _))
      obtain ⟨e3, e4⟩ := ih ls1 e2 (fun x hx => hls x (List.mem_cons_of_mem _ hx))
        (fun x hx => hls1 x (List.mem_cons_of_mem _ hx))
      exact ⟨by rw [e1, e3], e4⟩

theorem unlines_crlf (lines : List Bytes) :
    unlines [CR, LF] lines = unlines [LF] (lines.map (fun l => l ++ [CR])) := by
  induction lines with
  | nil => rfl
  | cons l ls ih => simp [unlines, ih]

theorem stripCR_snoc (l : Bytes) : stripCR (l ++ [CR]) = l := by
  simp [stripCR]

/-- The output for a file of terminated lines: `t` is forced to be empty. -/
theorem converted_terminated (term : Bytes) (ls : List Bytes) (o : Bytes)
    (hls : ∀ l ∈ ls, LF ∉ l) (h : Converted term (unlines [LF] ls) o) :
    o = unlines term (ls.map stripCR) := by
  obtain ⟨ls1, r, t, hs, hls1, hr, ht, ho⟩ := h
  have hs2 : unlines [LF] ls ++ [] = unlines [LF] ls1 ++ r := by simpa using hs
  obtain ⟨e1, e2⟩ := unlines_unique ls ls1 [] r hs2 hls hls1 (by simp) hr
  subst e1
  subst e2
  rcases ht with ht | ⟨-, hne⟩
  · simp [ho, ht]
  · exact absurd rfl hne

/-- Lines terminated by CR LF come out with the terminator in place of CR LF. -/
theorem converted_crlf_lines (term : Bytes) (lines : List Bytes) (o : Bytes)
    (hl : ∀ l ∈ lines, LF ∉ l) (h : Converted term (unlines [CR, LF] lines) o) :
    o = unlines term lines := by
  rw [unlines_crlf] at h
  have h2 := converted_terminated term _ o (by
    intro l hm
    obtain ⟨l0, hl0, rfl⟩ := List.mem_map.mp hm
    simp [hl l0 hl0]) h
  rw [h2, List.map_map]
  congr 1
  conv_rhs => rw [← List.map_id lines]
  exact List.map_congr_left (fun l _ => stripCR_snoc l)

/-- Lines terminated by LF that do not end in CR come out unchanged but for the
terminator. -/
theorem converted_lf_lines (term : Bytes) (lines : List Bytes) (o : Bytes)
    (hl : ∀ l ∈ lines, LF ∉ l ∧ l.getLast? ≠ some CR)
    (h : Converted term (unlines [LF] lines) o) :
    o = unlines term lines := by
  have h2 := converted_terminated term _ o (fun l hm => (hl l hm).1) h
  rw [h2]
  congr 1
  conv_rhs => rw [← List.map_id lines]
  exact List.map_congr_left (fun l hm => stripCR_noCR l (hl l hm).2)

theorem mem_unlines (term : Bytes) (ls : List Bytes) (l : Bytes) (x : Nat)
    (hl : l ∈ ls) (hx : x ∈ l) : x ∈ unlines term ls := by
  induction ls with
  | nil => cases hl
  | cons a ls ih =>
    rcases List.mem_cons.mp hl with rfl | hl
    · simp [unlines, hx]
    · simp [unlines, ih hl]

/-- A file that is empty or ends in LF consists of terminated lines only. -/
theorem terminated_lines (s : Bytes) (h : s = [] ∨ s.getLast? = some LF) :
    ∃ ls : List Bytes, s = unlines [LF] ls ∧ ∀ l ∈ ls, LF ∉ l := by
  obtain ⟨o, -, ls, r, t, hs, hls, hr, -, -⟩ := convert_converted false s
  have hr0 : r = [] := by
    by_contra hne
    rcases h with h | h
    · rw [h] at hs
      have := congrArg List.length hs
      have hpos : 0 < r.length := List.length_pos.mpr hne
      simp at this
      omega
    · rw [hs, List.getLast?_append_of_ne_nil _ hne] at h
      exact hr (List.mem_of_getLast?_eq_some h)
  exact ⟨ls, by rw [hs, hr0, List.append_nil], hls⟩

/-! ## Terminators in the output -/

theorem lfp_noLF (a : Bytes) (h : LF ∉ a) : LFPreceded a := by
  intro pre post e
  exact absurd (by rw [e]; simp) h

theorem lfp_append (a b : Bytes) (ha : LFPreceded a) (hb : LFPreceded b) :
    LFPreceded (a ++ b) := by
  intro pre post e
  rcases List.append_eq_append_iff.mp e with ⟨a1, e1, e2⟩ | ⟨c1, e1, e2⟩
  · have := hb a1 post e2
    rw [e1, List.getLast?_append, this]; rfl
  · cases c1 with
    | nil =>
      exact absurd (hb [] post (by simpa using e2.symm)) (by simp)
    | cons x c1 =>
      simp only [List.cons_append, List.cons.injEq] at e2
      exact ha pre c1 (by rw [e1, e2.1])

theorem lfp_crlf : LFPreceded [CR, LF] := by
  intro pre post e
  cases pre with
  | nil => simp at e
  | cons x pre =>
    cases pre with
    | nil => simp at e; simp [e.1]
    | cons y pre =>
      have := congrArg List.length e
      simp at this

theorem mem_stripCR (l : Bytes) (x : Nat) (h : x ∈ stripCR l) : x ∈ l := by
  unfold stripCR at h
  split at h
  · exact List.dropLast_subset l h
  · exact h

theorem lfp_unlines (ls : List Bytes) (h : ∀ l ∈ ls, LF ∉ l) :
    LFPreceded (unlines [CR, LF] ls) := by
  induction ls with
  | nil => exact lfp_noLF [] (by simp)
  | cons l ls ih =>
    have h1 : LF ∉ l := h l (List.mem_cons_self _ _)
    exact lfp_append _ _ (lfp_append _ _ (lfp_noLF l h1) lfp_crlf)
      (ih (fun x hx => h x (List.mem_cons_of_mem _ hx)))

/-- With the CR LF terminator every LF of the output follows a CR. -/
theorem converted_lfp (s o : Bytes) (h : Converted [CR, LF] s o) : LFPreceded o := by
  obtain ⟨ls, r, t, -, hls, hr, ht, ho⟩ := h
  rw [ho]
  refine lfp_append _ _ (lfp_unlines _ ?_) (lfp_append _ _ (lfp_noLF r hr) ?_)
  · intro l hm
    obtain ⟨l0, hl0, rfl⟩ := List.mem_map.mp hm
    exact fun hx => hls l0 hl0 (mem_stripCR l0 LF hx)
  · rcases ht with ht | ⟨ht, -⟩
    · rw [ht]; exact lfp_noLF [] (by simp)
    · rw [ht]; exact lfp_crlf

/-- Where a pair of adjacent bytes can lie in `u ++ v`. -/
theorem pair_infix_append (a b : Nat) (u v : Bytes) (h : [a, b] <:+: u ++ v) :
    [a, b] <:+: u ∨ [a, b] <:+: v ∨ (u.getLast? = some a ∧ v.head? = some b) := by
  obtain ⟨pre, post, e⟩ := h
  have e2 : pre ++ (a :: b :: post) = u ++ v := by simpa using e
  rcases List.append_eq_append_iff.mp e2 with ⟨a1, e3, e4⟩ | ⟨c1, e3, e4⟩
  · -- u = pre ++ a1, a :: b :: post = a1 ++ v
    cases a1 with
    | nil =>
      right; left
      exact ⟨[], post, by simpa using e4⟩
    | cons x a1 =>
      simp only [List.cons_append, List.cons.injEq] at e4
      cases a1 with
      | nil =>
        right; right
        refine ⟨by rw [e3, ← e4.1]; simp, ?_⟩
        have : v = b :: post := by simpa using e4.2.symm
        rw [this]; rfl
      | cons y a1 =>
        left
        simp only [List.cons_append, List.cons.injEq] at e4
        exact ⟨pre, a1, by rw [e3, ← e4.1, ← e4.2.1]; simp⟩
  · -- pre = u ++ c1, v = c1 ++ a :: b :: post
    right; left
    exact ⟨c1, post, by rw [e4]; simp⟩

theorem no_pair_of_not_mem (a b : Nat) (u : Bytes) (h : b ∉ u) : ¬ [a, b] <:+: u := by
  rintro ⟨pre, post, e⟩
  exact h (by rw [← e]; simp)

theorem unlines_getLast (xs : List Bytes) : (unlines [LF] xs).getLast? ≠ some CR := by
  cases xs with
  | nil => simp [unlines]
  | cons l xs =>
    induction xs generalizing l with
    | nil => simp [unlines]
    | cons l1 xs ih =>
      have := ih l1
      intro h
      apply this
      have e : unlines [LF] (l :: l1 :: xs) = (l ++ [LF]) ++ unlines [LF] (l1 :: xs) := rfl
      rw [e, List.getLast?_append_of_ne_nil _ (by simp [unlines])] at h
      exact h

theorem line_infix_unlines (ls : List Bytes) (l r : Bytes) (h : l ∈ ls) :
    l ++ [LF] <:+: unlines [LF] ls ++ r := by
  induction ls with
  | nil => cases h
  | cons a ls ih =>
    rcases List.mem_cons.mp h with rfl | h
    · exact ⟨[], unlines [LF] ls ++ r, by simp [unlines]⟩
    · obtain ⟨pre, post, e⟩ := ih h
      exact ⟨a ++ [LF] ++ pre, post, by simp [unlines, ← e]⟩

/-- With the LF terminator, a CR LF in the output comes from a CR CR LF in the
file or from a CR at its very end. -/
theorem converted_no_crlf (s o : Bytes) (h : Converted [LF] s o)
    (h3 : ¬ [CR, CR, LF] <:+: s) (hend : s.getLast? ≠ some CR) : ¬ [CR, LF] <:+: o := by
  obtain ⟨ls, r, t, hs, hls, hr, ht, ho⟩ := h
  -- no stripped line ends in CR
  have hA : ∀ l ∈ ls, (stripCR l).getLast? ≠ some CR := by
    intro l hm hc
    by_cases hl : l.getLast? = some CR
    · obtain ⟨l1, e1⟩ := List.getLast?_eq_some_iff.mp hl
      have e2 : stripCR l = l1 := by rw [e1]; exact stripCR_snoc l1
      rw [e2] at hc
      obtain ⟨l0, e0⟩ := List.getLast?_eq_some_iff.mp hc
      apply h3
      have hi := line_infix_unlines ls l r hm
      rw [← hs, e1, e0] at hi
      exact List.IsInfix.trans ⟨l0, [], by simp⟩ hi
    · rw [stripCR_noCR l hl] at hc
      exact hl hc
  have hB : ∀ xs : List Bytes, (∀ l ∈ xs, LF ∉ l ∧ l.getLast? ≠ some CR) →
      ¬ [CR, LF] <:+: unlines [LF] xs := by
    intro xs
    induction xs with
    | nil => intro _ hi; simp [unlines] at hi
    | cons l xs ih =>
      intro hx hi
      have e : unlines [LF] (l :: xs) = (l ++ [LF]) ++ unlines [LF] xs := rfl
      rw [e] at hi
      obtain ⟨hl1, hl2⟩ := hx l (List.mem_cons_self _ _)
      rcases pair_infix_append _ _ _ _ hi with h1 | h1 | ⟨h1, -⟩
      · rcases pair_infix_append _ _ _ _ h1 with h2 | h2 | ⟨h2, -⟩
        · exact no_pair_of_not_mem _ _ _ hl1 h2
        · obtain ⟨pre, post, e5⟩ := h2
          have := congrArg List.length e5
          simp at this
          omega
        · exact hl2 h2
      · exact ih (fun x hm => hx x (List.mem_cons_of_mem _ hm)) h1
      · simp at h1
  intro hi
  rw [ho] at hi
  rcases pair_infix_append _ _ _ _ hi with h1 | h1 | ⟨h1, -⟩
  · refine hB _ ?_ h1
    intro l hm
    obtain ⟨l0, hl0, rfl⟩ := List.mem_map.mp hm
    exact ⟨fun hx => hls l0 hl0 (mem_stripCR l0 LF hx), hA l0 hl0⟩
  · rcases ht with ht | ⟨ht, hne⟩
    · rw [ht, List.append_nil] at h1
      exact no_pair_of_not_mem _ _ _ hr h1
    · rw [ht] at h1
      rcases pair_infix_append _ _ _ _ h1 with h2 | h2 | ⟨h2, -⟩
      · exact no_pair_of_not_mem _ _ _ hr h2
      · obtain ⟨pre, post, e5⟩ := h2
        have := congrArg List.length e5
        simp at this
        omega
      · apply hend
        rw [hs, List.getLast?_append_of_ne_nil _ hne]
        exact h2
  · exact unlines_getLast _ h1

/-! ## processFile on a text file when nothing fails -/

theorem stream_none (fault : Nat → Option GoError) (h : ∀ i, fault i = none) (i : Nat)
    (c : Bytes) : stream fault i c = bytes c := by
  induction c generalizing i with
  | nil => simp [stream, h, bytes]
  | cons b c ih => simp [stream, h, ih, bytes_cons]

theorem takeBytes_bytes (n : Nat) (c : Bytes) : (takeBytes n (bytes c)).1 = c.take n := by
  induction n generalizing c with
  | zero => cases c <;> rfl
  | succ n ih =>
    cases c with
    | nil => rfl
    | cons b c =>
      show b :: (takeBytes n (bytes c)).1 = _
      rw [ih]; rfl

/-- The sniffing read on a non-empty file: its first 512 bytes at most. -/
theorem Read_bytes (c : Bytes) (hc : c ≠ []) :
    (NewReader (bytes c)).Read 512 = (c.take 512, none) := by
  cases c with
  | nil => exact absurd rfl hc
  | cons b c =>
    have h := takeBytes_bytes (min 512 defaultBufSize) (b :: c)
    have hm : min 512 defaultBufSize = 512 := by decide
    rw [hm] at h
    simp only [Reader.Read, NewReader, bytes_cons, hm]
    rw [← bytes_cons, h]

theorem FS.set_set (fs : FS) (p : Bytes) (a b : Option Bytes) :
    (fs.set p a).set p b = fs.set p b := by
  funext q
  simp only [FS.set]
  split <;> rfl

theorem FS.set_fresh (fs : FS) (p : Bytes) (a : Option Bytes) (h : fs p = none) :
    (fs.set p a).set p none = fs := by
  funext q
  simp only [FS.set]
  split
  · next e => rw [e, h]
  · rfl

theorem convert_eq_some (crlf : Bool) (c o : Bytes) (h : convert crlf c = some o) :
    ∃ w, readLoop crlf (c.length + 1) (NewReader (bytes c)).ReadLine (NewWriter none)
        = some (.done w) ∧ w.Flush.1.out = o := by
  unfold convert at h
  split at h
  · next w e => exact ⟨w, e, by simpa using h⟩
  · cases h

/-- On a non-empty text file, when nothing fails, `processFile` reaches the
comparison of sizes with the conversion output in the temporary file. -/
theorem processFile_text (cfg : Config) (env : Env) (st : State) (dir name c o : Bytes)
    (hfile : st.fs (Join dir name) = some c) (hc : c ≠ []) (hq : env.NoFaults)
    (htext : HasPrefix (env.DetectContentType (c.take 512)) (bytesOf "text/") = true)
    (hfresh : st.fs (tempPath env st.fs dir name) = none)
    (hconv : convert cfg.crlf c = some o) :
    processFile cfg env st dir name =
      replaceIfChanged cfg env
        ⟨st.fs.set (tempPath env st.fs dir name) (some o), st.changed, st.stdout,
          st.ops ++ [.createTemp (tempPath env st.fs dir name)]⟩
        dir name (Join dir name) (tempPath env st.fs dir name) := by
  obtain ⟨w, hw, hf⟩ := convert_eq_some _ _ _ hconv
  have hs : stream (env.readFault (Join dir name)) 0 c = bytes c :=
    stream_none _ (hq.1 _) 0 c
  simp only [processFile, hfile, hs, Read_bytes c hc, htext, if_true, orFatal, TempFile, hfresh,
    hq.2, bytes_length, hw, hf, FS.set_set]

/-- The sizes differ: the original is replaced by the temporary file. -/
theorem replace_changed (cfg : Config) (env : Env) (st : State) (dir name tmp c1 c2 : Bytes)
    (h1 : st.fs (Join dir name) = some c1) (h2 : st.fs tmp = some c2)
    (hd : c1.length ≠ c2.length) (hfresh : st.fs (tempPath env st.fs dir name) = none) :
    replaceIfChanged cfg env st dir name (Join dir name) tmp =
      .ok ⟨(st.fs.set tmp none).set (Join dir name) (some c2), st.changed + 1,
        st.stdout ++ (if 1 ≤ cfg.verbosity then
          [.linesChanged (Join dir name) (abs ((c1.length : Int) - c2.length))] else []),
        st.ops ++ [.createTemp (tempPath env st.fs dir name),
          .remove (tempPath env st.fs dir name),
          .rename (Join dir name) (tempPath env st.fs dir name),
          .rename tmp (Join dir name),
          .remove (tempPath env st.fs dir name)]⟩ := by
  have n1 : Join dir name ≠ tempPath env st.fs dir name := by
    intro e; rw [← e, h1] at hfresh; cases hfresh
  have n2 : tmp ≠ tempPath env st.fs dir name := by
    intro e; rw [← e, h2] at hfresh; cases hfresh
  have n3 : tmp ≠ Join dir name := by
    intro e; rw [e, h1] at h2; cases h2; exact hd rfl
  have hd2 : (c1.length : Int) - c2.length ≠ 0 := by omega
  have hfs : ((((((st.fs.set (tempPath env st.fs dir name) (some [])).set
        (tempPath env st.fs dir name) none).set (tempPath env st.fs dir name) (some c1)).set
        (Join dir name) none).set (Join dir name) (some c2)).set tmp none).set
        (tempPath env st.fs dir name) none
      = ((st.fs.set tmp none).set (Join dir name) (some c2)) := by
    funext q
    simp only [FS.set]
    by_cases e1 : q = tempPath env st.fs dir name
    · simp [e1, n1.symm, n2.symm, hfresh]
    · by_cases e2 : q = tmp
      · simp [e2, n2, n3]
      · by_cases e3 : q = Join dir name
        · simp [e3, n1, n3.symm]
        · simp [e1, e2, e3]
  simp only [replaceIfChanged, orFatal, statSize, h1, h2, hd2, ne_eq, not_false_eq_true, if_true,
    TempFile, hfresh, Remove, Rename, FS.set, State.print, if_pos, n1, n2, n3, n1.symm, n2.symm,
    n3.symm, if_false, reduceCtorEq]
  split <;> simp [hfs]

/-- The sizes are equal: the temporary file is removed, the original stays. -/
theorem replace_unchanged (cfg : Config) (env : Env) (st : State) (dir name tmp c1 c2 : Bytes)
    (h1 : st.fs (Join dir name) = some c1) (h2 : st.fs tmp = some c2)
    (hd : c1.length = c2.length) :
    replaceIfChanged cfg env st dir name (Join dir name) tmp =
      .ok ⟨st.fs.set tmp none, st.changed,
        st.stdout ++ (if cfg.verbosity = 2 then [.linesChanged (Join dir name) 0] else []),
        st.ops ++ [.remove tmp]⟩ := by
  have hd2 : (c1.length : Int) - c2.length = 0 := by omega
  simp only [replaceIfChanged, orFatal, statSize, h1, h2, hd2, ne_eq, not_true_eq_false, if_false,
    Remove, State.print, reduceCtorEq, abs]
  split <;> simp

theorem unlines_length (term : Bytes) (ls : List Bytes) :
    (unlines term ls).length = (ls.map List.length).sum + term.length * ls.length := by
  induction ls with
  | nil => simp [unlines]
  | cons l ls ih =>
    simp only [unlines, List.length_append, ih, List.map_cons, List.sum_cons, List.length_cons]
    ring

theorem unlines_ne_nil (term : Bytes) (ls : List Bytes) (ht : term ≠ []) (h : ls ≠ []) :
    unlines term ls ≠ [] := by
  cases ls with
  | nil => exact absurd rfl h
  | cons l ls => simp [unlines, ht]

theorem temp_ne_of_fresh (fs : FS) (p q : Bytes) (c : Bytes) (hp : fs p = none)
    (hq : fs q = some c) : q ≠ p := by
  intro e; rw [e, hp] at hq; cases hq

/-! ## The claims about processFile -/

theorem convert_nil (crlf : Bool) : convert crlf [] = some [] := by
  cases crlf <;> decide

/-- C1: a text file made of lines (none containing LF) each followed by CR LF,
processed with the LF target when no read or write fails and `TempFile` finds
unused names: the conversion output is the lines each followed by one LF, the
original is replaced by it, `changed` grows by one, and (printed when the
verbosity is at least 1) `lines_changed` is the number of lines. -/
theorem processFile_crlf_to_lf (cfg : Config) (env : Env) (st : State) (dir name : Bytes)
    (lines : List Bytes) (hlf : cfg.crlf = false) (hne : lines ≠ [])
    (hl : ∀ l ∈ lines, LF ∉ l)
    (hfile : st.fs (Join dir name) = some (unlines [CR, LF] lines))
    (htext : HasPrefix (env.DetectContentType ((unlines [CR, LF] lines).take 512))
      (bytesOf "text/") = true)
    (hq : env.NoFaults)
    (hfresh : st.fs (tmp1 env st dir name) = none)
    (hfresh2 : (st.fs.set (tmp1 env st dir name) (some (unlines [LF] lines)))
      (tmp2 env st dir name (unlines [LF] lines)) = none) :
    convert false (unlines [CR, LF] lines) = some (unlines [LF] lines) ∧
    processFile cfg env st dir name =
      .ok ⟨st.fs.set (Join dir name) (some (unlines [LF] lines)), st.changed + 1,
        st.stdout ++ (if 1 ≤ cfg.verbosity then
          [.linesChanged (Join dir name) lines.length] else []),
        st.ops ++ [.createTemp (tmp1 env st dir name),
          .createTemp (tmp2 env st dir name (unlines [LF] lines)),
          .remove (tmp2 env st dir name (unlines [LF] lines)),
          .rename (Join dir name) (tmp2 env st dir name (unlines [LF] lines)),
          .rename (tmp1 env st dir name) (Join dir name),
          .remove (tmp2 env st dir name (unlines [LF] lines))]⟩ := by
  obtain ⟨o, ho, hc⟩ := convert_converted false (unlines [CR, LF] lines)
  have e : o = unlines [LF] lines := converted_crlf_lines [LF] lines o hl hc
  subst e
  refine ⟨ho, ?_⟩
  have hcne : unlines [CR, LF] lines ≠ [] := unlines_ne_nil _ _ (by simp) hne
  have hf : st.fs (tempPath env st.fs dir name) = none := hfresh
  have n1 : Join dir name ≠ tempPath env st.fs dir name := temp_ne_of_fresh _ _ _ _ hf hfile
  have hlen1 := unlines_length [CR, LF] lines
  have hlen2 := unlines_length [LF] lines
  have hpos : 0 < lines.length := List.length_pos.mpr hne
  simp only [List.length_cons, List.length_nil] at hlen1 hlen2
  rw [processFile_text cfg env st dir name _ _ hfile hcne hq htext hfresh (by rw [hlf]; exact ho)]
  rw [replace_changed cfg env _ dir name (tempPath env st.fs dir name) (unlines [CR, LF] lines)
    (unlines [LF] lines) (by simp [FS.set, n1, hfile]) (by simp [FS.set])
    (by omega) hfresh2]
  have ha : abs (((unlines [CR, LF] lines).length : Int) - (unlines [LF] lines).length)
      = lines.length := by
    have : ((unlines [CR, LF] lines).length : Int) - (unlines [LF] lines).length
        = lines.length := by
      rw [hlen1, hlen2]; push_cast; ring
    rw [this, abs]
    simp
  simp only [ha, tmp1, tmp2, FS.set_fresh _ _ _ hf, List.append_assoc, List.singleton_append]

/-- C3 (as amended): a non-empty text file made of lines each followed by the
target terminator (LF target: no line contains LF or ends in CR; CR LF target:
no line contains LF), processed when nothing fails: the conversion output is
the content itself, the temporary file is removed, the file system is as
before and `changed` is not incremented. -/
theorem processFile_same_style (cfg : Config) (env : Env) (st : State) (dir name : Bytes)
    (lines : List Bytes) (hne : lines ≠ [])
    (hstyle : (cfg.crlf = false ∧ ∀ l ∈ lines, LF ∉ l ∧ l.getLast? ≠ some CR) ∨
      (cfg.crlf = true ∧ ∀ l ∈ lines, LF ∉ l))
    (hfile : st.fs (Join dir name) = some (unlines (terminator cfg.crlf) lines))
    (htext : HasPrefix (env.DetectContentType ((unlines (terminator cfg.crlf) lines).take 512))
      (bytesOf "text/") = true)
    (hq : env.NoFaults)
    (hfresh : st.fs (tmp1 env st dir name) = none) :
    convert cfg.crlf (unlines (terminator cfg.crlf) lines)
      = some (unlines (terminator cfg.crlf) lines) ∧
    processFile cfg env st dir name =
      .ok ⟨st.fs, st.changed,
        st.stdout ++ (if cfg.verbosity = 2 then [.linesChanged (Join dir name) 0] else []),
        st.ops ++ [.createTemp (tmp1 env st dir name), .remove (tmp1 env st dir name)]⟩ := by
  obtain ⟨o, ho, hc⟩ := convert_converted cfg.crlf (unlines (terminator cfg.crlf) lines)
  have e : o = unlines (terminator cfg.crlf) lines := by
    rcases hstyle with ⟨h1, h2⟩ | ⟨h1, h2⟩
    · rw [h1] at hc ⊢
      exact converted_lf_lines [LF] lines o h2 hc
    · rw [h1] at hc ⊢
      exact converted_crlf_lines [CR, LF] lines o h2 hc
  subst e
  refine ⟨ho, ?_⟩
  have hcne : unlines (terminator cfg.crlf) lines ≠ [] :=
    unlines_ne_nil _ _ (by cases cfg.crlf <;> simp [terminator]) hne
  have hf : st.fs (tempPath env st.fs dir name) = none := hfresh
  have n1 : Join dir name ≠ tempPath env st.fs dir name := temp_ne_of_fresh _ _ _ _ hf hfile
  rw [processFile_text cfg env st dir name _ _ hfile hcne hq htext hfresh ho]
  rw [replace_unchanged cfg env _ dir name (tempPath env st.fs dir name)
    (unlines (terminator cfg.crlf) lines) (unlines (terminator cfg.crlf) lines)
    (by simp [FS.set, n1, hfile]) (by simp [FS.set]) rfl]
  simp only [tmp1, FS.set_fresh _ _ _ hf, List.append_assoc, List.singleton_append]

/-- C10: there is text content (`"a\r\nb"` under the LF target) whose conversion
output has the length of the original and other bytes; and whenever the output
has the length of the original and other bytes, `processFile` (nothing failing)
removes the temporary file, leaves the file system as it was and does not
increment `changed`. -/
theorem equal_length_unchanged :
    (convert false (bytesOf "a\r\nb") = some (bytesOf "a\nb\n") ∧
      (bytesOf "a\nb\n").length = (bytesOf "a\r\nb").length ∧
      bytesOf "a\nb\n" ≠ bytesOf "a\r\nb") ∧
    ∀ (cfg : Config) (env : Env) (st : State) (dir name c o : Bytes),
      st.fs (Join dir name) = some c →
      HasPrefix (env.DetectContentType (c.take 512)) (bytesOf "text/") = true →
      env.NoFaults →
      st.fs (tmp1 env st dir name) = none →
      convert cfg.crlf c = some o → o.length = c.length → o ≠ c →
      processFile cfg env st dir name =
        .ok ⟨st.fs, st.changed,
          st.stdout ++ (if cfg.verbosity = 2 then [.linesChanged (Join dir name) 0] else []),
          st.ops ++ [.createTemp (tmp1 env st dir name), .remove (tmp1 env st dir name)]⟩ := by
  refine ⟨⟨by decide, by decide, by decide⟩, ?_⟩
  intro cfg env st dir name c o hfile htext hq hfresh ho hlen hdiff
  have hcne : c ≠ [] := by
    intro e
    rw [e, convert_nil] at ho
    exact hdiff (by rw [e]; exact (Option.some.inj ho).symm)
  have hf : st.fs (tempPath env st.fs dir name) = none := hfresh
  have n1 : Join dir name ≠ tempPath env st.fs dir name := temp_ne_of_fresh _ _ _ _ hf hfile
  rw [processFile_text cfg env st dir name _ _ hfile hcne hq htext hfresh ho]
  rw [replace_unchanged cfg env _ dir name (tempPath env st.fs dir name) c o
    (by simp [FS.set, n1, hfile]) (by simp [FS.set]) hlen.symm]
  simp only [tmp1, FS.set_fresh _ _ _ hf, List.append_assoc, List.singleton_append]

/-- C5: a file whose sniffing read succeeds and whose sniffed content type does
not begin with `text/`: `processFile` returns with the file system, the record of
file-system operations and `changed` as they were; it prints `skipped` when the
verbosity is 2. -/
theorem processFile_not_text (cfg : Config) (env : Env) (st : State) (dir name c : Bytes)
    (hfile : st.fs (Join dir name) = some c)
    (hread : (sniff env (Join dir name) c).2 = none)
    (hbin : HasPrefix (env.DetectContentType (sniff env (Join dir name) c).1)
      (bytesOf "text/") = false) :
    processFile cfg env st dir name =
      .ok ⟨st.fs, st.changed,
        st.stdout ++ (if cfg.verbosity = 2 then [.skipped (Join dir name)] else []),
        st.ops⟩ := by
  unfold sniff at hread hbin
  simp only [processFile, hfile, hread, hbin, Bool.false_eq_true, if_false, State.print]
  split <;> simp

/-- C6 (what the code does): on an empty file the sniffing read returns an error
(`io.EOF` unless the read itself fails) and `processFile` ends in `log.Fatal`,
with the state as it was. -/
theorem processFile_empty_fatal (cfg : Config) (env : Env) (st : State) (dir name : Bytes)
    (hfile : st.fs (Join dir name) = some []) :
    ∃ e, processFile cfg env st dir name = .fatal e st := by
  cases hf : env.readFault (Join dir name) 0 with
  | none => exact ⟨.EOF, by simp [processFile, hfile, stream, hf, NewReader, Reader.Read]⟩
  | some e => exact ⟨e, by simp [processFile, hfile, stream, hf, NewReader, Reader.Read]⟩

/-! ## Claims, continued -/

/-- C1, at the file of the scenario: `"hello\r\nworld\r\n"` with `--lf`. -/
theorem processFile_crlf_to_lf_witness :
    (start (oneFile (bytesOf "a.txt") (bytesOf "hello\r\nworld\r\n"))).fs
        (Join (bytesOf "d") (bytesOf "a.txt"))
      = some (unlines [CR, LF] [bytesOf "hello", bytesOf "world"]) ∧
    convert false (bytesOf "hello\r\nworld\r\n") = some (bytesOf "hello\nworld\n") ∧
    processFile cfgLF env0 (start (oneFile (bytesOf "a.txt") (bytesOf "hello\r\nworld\r\n")))
        (bytesOf "d") (bytesOf "a.txt") =
      .ok ⟨(oneFile (bytesOf "a.txt") (bytesOf "hello\r\nworld\r\n")).set (bytesOf "d/a.txt")
            (some (bytesOf "hello\nworld\n")), 1,
        [.linesChanged (bytesOf "d/a.txt") 2],
        [.createTemp (bytesOf "d/a.txt0"), .createTemp (bytesOf "d/a.txt1"),
          .remove (bytesOf "d/a.txt1"), .rename (bytesOf "d/a.txt") (bytesOf "d/a.txt1"),
          .rename (bytesOf "d/a.txt0") (bytesOf "d/a.txt"), .remove (bytesOf "d/a.txt1")]⟩ :=
  ⟨by decide,
    processFile_crlf_to_lf cfgLF env0 (start (oneFile (bytesOf "a.txt") (bytesOf "hello\r\nworld\r\n")))
      (bytesOf "d") (bytesOf "a.txt") [bytesOf "hello", bytesOf "world"] rfl (by decide)
      (by decide) (by decide) (by decide) ⟨fun _ _ => rfl, fun _ => rfl⟩ (by decide) (by decide)⟩

/-- C3 as stated fails: `"a\nb"` has only LF line ends, yet under the LF target
the conversion output is `"a\nb\n"`, the file is replaced by it and `changed`
becomes 1; likewise `"a\r\nb"` under the CR LF target becomes `"a\r\nb\r\n"`. -/
theorem lf_content_not_noop :
    convert false (bytesOf "a\nb") = some (bytesOf "a\nb\n") ∧
    bytesOf "a\nb\n" ≠ bytesOf "a\nb" ∧
    (processFile cfgLF env0 (start (oneFile (bytesOf "a.txt") (bytesOf "a\nb")))
        (bytesOf "d") (bytesOf "a.txt")).view (bytesOf "d/a.txt")
      = (true, some (some (bytesOf "a\nb\n")), some 1) ∧
    (processFile cfgCRLF env0 (start (oneFile (bytesOf "a.txt") (bytesOf "a\r\nb")))
        (bytesOf "d") (bytesOf "a.txt")).view (bytesOf "d/a.txt")
      = (true, some (some (bytesOf "a\r\nb\r\n")), some 1) := by
  refine ⟨by decide, by decide, by decide, by decide⟩

/-- C3 (as amended), at `"a\nb\n"` with `--lf`. -/
theorem processFile_same_style_witness :
    ((cfgLF.crlf = false ∧ ∀ l ∈ [bytesOf "a", bytesOf "b"], LF ∉ l ∧ l.getLast? ≠ some CR) ∨
      (cfgLF.crlf = true ∧ ∀ l ∈ [bytesOf "a", bytesOf "b"], LF ∉ l)) ∧
    convert false (bytesOf "a\nb\n") = some (bytesOf "a\nb\n") ∧
    processFile cfgLF env0 (start (oneFile (bytesOf "a.txt") (bytesOf "a\nb\n")))
        (bytesOf "d") (bytesOf "a.txt") =
      .ok ⟨oneFile (bytesOf "a.txt") (bytesOf "a\nb\n"), 0, [],
        [.createTemp (bytesOf "d/a.txt0"), .remove (bytesOf "d/a.txt0")]⟩ :=
  ⟨Or.inl (by decide),
    processFile_same_style cfgLF env0 (start (oneFile (bytesOf "a.txt") (bytesOf "a\nb\n")))
      (bytesOf "d") (bytesOf "a.txt") [bytesOf "a", bytesOf "b"] (by decide)
      (Or.inl (by decide)) (by decide) (by decide) ⟨fun _ _ => rfl, fun _ => rfl⟩ (by decide)⟩

/-- C10, at `"a\r\nb"` with `--lf`: the file stays as it is. -/
theorem equal_length_unchanged_witness :
    convert cfgLF.crlf (bytesOf "a\r\nb") = some (bytesOf "a\nb\n") ∧
    (bytesOf "a\nb\n").length = (bytesOf "a\r\nb").length ∧
    bytesOf "a\nb\n" ≠ bytesOf "a\r\nb" ∧
    processFile cfgLF env0 (start (oneFile (bytesOf "a.txt") (bytesOf "a\r\nb")))
        (bytesOf "d") (bytesOf "a.txt") =
      .ok ⟨oneFile (bytesOf "a.txt") (bytesOf "a\r\nb"), 0, [],
        [.createTemp (bytesOf "d/a.txt0"), .remove (bytesOf "d/a.txt0")]⟩ :=
  ⟨by decide, by decide, by decide,
    equal_length_unchanged.2 cfgLF env0 (start (oneFile (bytesOf "a.txt") (bytesOf "a\r\nb")))
      (bytesOf "d") (bytesOf "a.txt") (bytesOf "a\r\nb") (bytesOf "a\nb\n") (by decide)
      (by decide) ⟨fun _ _ => rfl, fun _ => rfl⟩ (by decide) (by decide) (by decide)
      (by decide)⟩

/-- C5, at a file `b.bin` with leading NUL bytes, `--lf`. -/
theorem processFile_not_text_witness :
    (sniff env0 (Join (bytesOf "d") (bytesOf "b.bin")) [0, 0, 1, 2]).2 = none ∧
    HasPrefix (env0.DetectContentType (sniff env0 (Join (bytesOf "d") (bytesOf "b.bin"))
      [0, 0, 1, 2]).1) (bytesOf "text/") = false ∧
    processFile cfgLF env0 (start (oneFile (bytesOf "b.bin") [0, 0, 1, 2]))
        (bytesOf "d") (bytesOf "b.bin") =
      .ok ⟨oneFile (bytesOf "b.bin") [0, 0, 1, 2], 0, [], []⟩ :=
  ⟨by decide, by decide,
    processFile_not_text cfgLF env0 (start (oneFile (bytesOf "b.bin") [0, 0, 1, 2]))
      (bytesOf "d") (bytesOf "b.bin") [0, 0, 1, 2] (by decide) (by decide) (by decide)⟩

/-- C6, at an empty file `e.txt` with `--lf`: the process ends in `log.Fatal`. -/
theorem processFile_empty_fatal_witness :
    (start (oneFile (bytesOf "e.txt") [])).fs (Join (bytesOf "d") (bytesOf "e.txt")) = some [] ∧
    ∃ e, processFile cfgLF env0 (start (oneFile (bytesOf "e.txt") [])) (bytesOf "d")
      (bytesOf "e.txt") = .fatal e (start (oneFile (bytesOf "e.txt") [])) :=
  ⟨by decide,
    processFile_empty_fatal cfgLF env0 (start (oneFile (bytesOf "e.txt") [])) (bytesOf "d")
      (bytesOf "e.txt") (by decide)⟩

/-- C2 as stated fails: under the LF target the output for `"a\r\r\n"` is
`"a\r\n"`, which contains a CR immediately followed by LF. -/
theorem lf_output_has_crlf :
    convert false (bytesOf "a\r\r\n") = some (bytesOf "a\r\n") ∧
    [CR, LF] <:+: bytesOf "a\r\n" :=
  ⟨by decide, ⟨[97], [], by decide⟩⟩

/-- C2 (as amended): the conversion produces an output for every content; with
the CR LF target every LF of the output is immediately preceded by CR; with the
LF target the output contains no CR immediately followed by LF provided the
content contains no CR CR LF and does not end in CR. -/
theorem convert_terminators (content : Bytes) :
    (∃ o, convert true content = some o ∧
      ∀ pre post : Bytes, o = pre ++ LF :: post → pre.getLast? = some CR) ∧
    (¬ [CR, CR, LF] <:+: content → content.getLast? ≠ some CR →
      ∃ o, convert false content = some o ∧ ¬ [CR, LF] <:+: o) := by
  constructor
  · obtain ⟨o, ho, hc⟩ := convert_converted true content
    exact ⟨o, ho, converted_lfp content o hc⟩
  · intro h3 hend
    obtain ⟨o, ho, hc⟩ := convert_converted false content
    exact ⟨o, ho, converted_no_crlf content o hc h3 hend⟩

/-- C2 (as amended), at the mixed content `"a\r\nb\rc\n"`. -/
theorem convert_terminators_witness :
    ¬ [CR, CR, LF] <:+: bytesOf "a\r\nb\rc\n" ∧
    (bytesOf "a\r\nb\rc\n").getLast? ≠ some CR ∧
    ∃ o, convert false (bytesOf "a\r\nb\rc\n") = some o ∧ ¬ [CR, LF] <:+: o :=
  ⟨by decide, by decide,
    (convert_terminators (bytesOf "a\r\nb\rc\n")).2 (by decide) (by decide)⟩

/-- C4: content without CR in which every line, the last included, ends in LF:
the CR LF conversion produces an output, and the LF conversion of that output
is the content. -/
theorem convert_round_trip (content : Bytes) (hcr : CR ∉ content)
    (hend : content = [] ∨ content.getLast? = some LF) :
    ∃ o, convert true content = some o ∧ convert false o = some content := by
  obtain ⟨ls, hs, hls⟩ := terminated_lines content hend
  obtain ⟨o, ho, hc⟩ := convert_converted true content
  have hl : ∀ l ∈ ls, LF ∉ l ∧ l.getLast? ≠ some CR := by
    intro l hm
    refine ⟨hls l hm, fun h => hcr ?_⟩
    rw [hs]
    exact mem_unlines [LF] ls l CR hm (List.mem_of_getLast?_eq_some h)
  have e1 : o = unlines [CR, LF] ls := by
    rw [hs] at hc
    exact converted_lf_lines [CR, LF] ls o hl hc
  obtain ⟨o2, ho2, hc2⟩ := convert_converted false o
  have e2 : o2 = unlines [LF] ls := by
    rw [e1] at hc2
    exact converted_crlf_lines [LF] ls o2 hls hc2
  exact ⟨o, ho, by rw [ho2, e2, hs]⟩

/-- C4, at `"hello\nworld\n"`. -/
theorem convert_round_trip_witness :
    CR ∉ bytesOf "hello\nworld\n" ∧
    (bytesOf "hello\nworld\n" = [] ∨ (bytesOf "hello\nworld\n").getLast? = some LF) ∧
    ∃ o, convert true (bytesOf "hello\nworld\n") = some o ∧
      convert false o = some (bytesOf "hello\nworld\n") :=
  ⟨by decide, Or.inr (by decide),
    convert_round_trip (bytesOf "hello\nworld\n") (by decide) (Or.inr (by decide))⟩

/-- C7 (what the code does): a read that fails with `EIO` at offset 2 of
`"a\nb\n"` does not end the process: the loop goes on, an empty line is written
for the failed read, and the original is replaced by `"a\n\nb\n"`. And when the
final `w.Flush()` fails for lack of room, its error is dropped: `processFile`
returns after replacing the original `"a\n"` by the empty temporary file. -/
theorem io_errors_not_fatal :
    (processFile cfgLF envReadFault (start (oneFile (bytesOf "a.txt") (bytesOf "a\nb\n")))
        (bytesOf "d") (bytesOf "a.txt")).view (bytesOf "d/a.txt")
      = (true, some (some (bytesOf "a\n\nb\n")), some 1) ∧
    ((NewWriter (some 0)).Write (bytesOf "a")).1.Flush.2 = some .ENOSPC ∧
    (processFile cfgLF envDiskFull (start (oneFile (bytesOf "a.txt") (bytesOf "a\n")))
        (bytesOf "d") (bytesOf "a.txt")).view (bytesOf "d/a.txt")
      = (true, some (some []), some 1) := by
  refine ⟨by decide, by decide, by decide⟩

/-- C8 (what the code does): `Less` puts the file `a` before the directory `b`
(and the directory `b` before the file `a` as well), although `a` is not a
directory and the two are not of the same kind; sorting the directory `b` and
the file `a` leaves the file first. -/
theorem less_file_before_dir :
    FileInfos.Less (.file (bytesOf "a")) (.dir (bytesOf "b") []) = true ∧
    FileInfos.Less (.dir (bytesOf "b") []) (.file (bytesOf "a")) = true ∧
    ¬ (((Entry.file (bytesOf "a")).IsDir = true ∧ (Entry.dir (bytesOf "b") []).IsDir = false) ∨
       ((Entry.file (bytesOf "a")).IsDir = (Entry.dir (bytesOf "b") []).IsDir ∧
         stringLess (bytesOf "a") (bytesOf "b") = true)) ∧
    (sortSort [.dir (bytesOf "b") [], .file (bytesOf "a")]).map (fun e => (e.IsDir, e.Name))
      = [(false, bytesOf "a"), (true, bytesOf "b")] := by
  refine ⟨by decide, by decide, by decide, by decide⟩

/-! ## Directory traversal: which files are processed -/

theorem runSteps_append (cfg : Config) (pf : State → Bytes → Bytes → Outcome)
    (a b : List Step) (st : State) :
    runSteps cfg pf (a ++ b) st = (runSteps cfg pf a st).andThen (runSteps cfg pf b) := by
  induction a generalizing st with
  | nil => rfl
  | cons x a ih =>
    cases x with
    | enter d => exact ih _
    | file d n =>
      show (pf st d n).andThen (fun st1 => runSteps cfg pf (a ++ b) st1) =
        ((pf st d n).andThen fun st1 => runSteps cfg pf a st1).andThen (runSteps cfg pf b)
      cases pf st d n with
      | ok st1 => exact ih st1
      | fatal e st1 => rfl
      | hang => rfl
    | abort e => rfl

theorem stepFiles_append (a b : List Step) : stepFiles (a ++ b) = stepFiles a ++ stepFiles b := by
  induction a with
  | nil => rfl
  | cons x a ih => cases x <;> simp [stepFiles, ih]

/-- The calls made are an initial part of the calls of the steps. -/
theorem callsMade_prefix (cfg : Config) (pf : State → Bytes → Bytes → Outcome)
    (steps : List Step) (st : State) : callsMade cfg pf steps st <+: stepFiles steps := by
  induction steps generalizing st with
  | nil => exact List.prefix_refl _
  | cons x steps ih =>
    cases x with
    | enter d => exact ih _
    | file d n =>
      show (d, n) :: _ <+: (d, n) :: stepFiles steps
      cases pf st d n with
      | ok st1 => exact (List.prefix_cons_inj _).mpr (ih st1)
      | fatal e st1 => exact (List.prefix_cons_inj _).mpr (List.nil_prefix)
      | hang => exact (List.prefix_cons_inj _).mpr (List.nil_prefix)
    | abort e => exact List.nil_prefix

/-- When the run returns, every call of the steps was made. -/
theorem callsMade_returned (cfg : Config) (pf : State → Bytes → Bytes → Outcome)
    (steps : List Step) (st : State) (h : (runSteps cfg pf steps st).returned = true) :
    callsMade cfg pf steps st = stepFiles steps := by
  induction steps generalizing st with
  | nil => rfl
  | cons x steps ih =>
    cases x with
    | enter d => exact ih _ h
    | file d n =>
      have h2 : ((pf st d n).andThen fun st1 => runSteps cfg pf steps st1).returned = true := h
      show (d, n) :: _ = (d, n) :: stepFiles steps
      cases hp : pf st d n with
      | ok st1 =>
        rw [hp] at h2
        simp only [ih st1 h2]
      | fatal e st1 => rw [hp] at h2; cases h2
      | hang => rw [hp] at h2; cases h2
    | abort e => cases h

theorem expectedCalls_cons (recursive : Bool) (dir : Bytes) (e : Entry) (es : List Entry) :
    expectedCalls recursive dir (e :: es)
      = expectedOf recursive dir e ++ expectedCalls recursive dir es := by
  simp [expectedCalls, expectedOf, filesIn]

theorem expectedCalls_flatMap (recursive : Bool) (dir : Bytes) (es : List Entry) :
    expectedCalls recursive dir es = es.flatMap (expectedOf recursive dir) := by
  induction es with
  | nil => rfl
  | cons e es ih => rw [expectedCalls_cons, ih, List.flatMap_cons]

theorem expectedOf_nondir (recursive : Bool) (dir : Bytes) (fi : Entry)
    (h : fi.IsDir = false) : expectedOf recursive dir fi = [(dir, fi.Name)] := by
  cases fi with
  | file name => cases recursive <;> simp [expectedOf, filesOf, allowed, joinAll, Entry.Name]
  | special name => cases recursive <;> simp [expectedOf, filesOf, allowed, joinAll, Entry.Name]
  | dir name es => cases h
  | unreadable name e => cases h

theorem expectedOf_dir (recursive : Bool) (dir name : Bytes) (es : List Entry) :
    expectedOf recursive dir (.dir name es)
      = if recursive = true ∧ hidden name = false then
          expectedCalls recursive (Join dir name) es
        else [] := by
  cases recursive with
  | false => simp [expectedOf, filesOf, allowed, List.filter_map, Function.comp_def]
  | true =>
    cases hh : hidden name with
    | true =>
      simp [expectedOf, filesOf, allowed, List.filter_map, Function.comp_def, hh]
    | false =>
      have ha : allowed true = fun x : List Bytes × Bytes => x.1.all fun d => !hidden d := by
        funext x; simp [allowed]
      simp [expectedOf, expectedCalls, filesOf, allowed, List.filter_map, Function.comp_def,
        hh, joinAll, ha]

theorem expectedOf_isDir (recursive : Bool) (dir : Bytes) (fi : Entry) (h : fi.IsDir = true) :
    expectedOf recursive dir fi
      = if recursive = true ∧ hidden fi.Name = false then
          expectedCalls recursive (Join dir fi.Name) (listed fi.ReadDir)
        else [] := by
  cases fi with
  | file name => cases h
  | special name => cases h
  | dir name es => exact expectedOf_dir recursive dir name es
  | unreadable name e =>
    have : expectedOf recursive dir (.unreadable name e) = [] := by
      simp [expectedOf, filesOf]
    rw [this]
    split <;> rfl

theorem depthOf_isDir (fi : Entry) (h : fi.IsDir = true) :
    depthOf fi = depthIn (listed fi.ReadDir) + 1 := by
  cases fi with
  | file name => cases h
  | special name => cases h
  | dir name es => simp [depthOf, Entry.ReadDir, listed]
  | unreadable name e => simp [depthOf, Entry.ReadDir, listed, depthIn]

theorem depthOf_le_depthIn (es : List Entry) (e : Entry) (h : e ∈ es) :
    depthOf e ≤ depthIn es := by
  induction es with
  | nil => cases h
  | cons a es ih =>
    rcases List.mem_cons.mp h with rfl | h
    · simp [depthIn]
    · have := ih h
      simp only [depthIn]
      omega

theorem rangeLoop_steps (cfg : Config) (sortFn : List Entry → List Entry) (dir : Bytes)
    (n : Nat) (l : List Entry)
    (hsub : ∀ fi ∈ l, fi.IsDir = true → ∃ steps : List Step,
      (stepFiles steps).Perm
        (expectedCalls cfg.recursive (Join dir fi.Name) (listed fi.ReadDir)) ∧
      ∀ (pf : State → Bytes → Bytes → Outcome) (st : State) (fuel : Nat), n ≤ fuel →
        processDirWith cfg sortFn pf fuel (Join dir fi.Name) fi.ReadDir st
          = runSteps cfg pf steps st) :
    ∃ steps : List Step,
      (stepFiles steps).Perm (l.flatMap (expectedOf cfg.recursive dir)) ∧
      ∀ (pf : State → Bytes → Bytes → Outcome) (st : State) (fuel : Nat), n ≤ fuel →
        rangeLoop cfg pf (processDirWith cfg sortFn pf fuel) dir l st
          = runSteps cfg pf steps st := by
  induction l with
  | nil => exact ⟨[], List.Perm.refl _, fun _ _ _ _ => rfl⟩
  | cons fi rest ih =>
    obtain ⟨sr, pr, er⟩ := ih (fun x h => hsub x (List.mem_cons_of_mem _ h))
    cases hd : fi.IsDir with
    | false =>
      refine ⟨.file dir fi.Name :: sr, ?_, ?_⟩
      · rw [List.flatMap_cons, expectedOf_nondir _ _ _ hd]
        exact List.Perm.cons _ pr
      · intro pf st fuel hf
        simp only [rangeLoop, hd, Bool.false_eq_true, if_false, runSteps]
        congr 1
        funext st1
        exact er pf st1 fuel hf
    | true =>
      by_cases hgo : cfg.recursive = true ∧ hidden fi.Name = false
      · obtain ⟨se, pe, ee⟩ := hsub fi (List.mem_cons_self _ _) hd
        refine ⟨se ++ sr, ?_, ?_⟩
        · rw [List.flatMap_cons, expectedOf_isDir _ _ _ hd, if_pos hgo, stepFiles_append]
          exact List.Perm.append pe pr
        · intro pf st fuel hf
          have hh : HasPrefix fi.Name (bytesOf ".") = false := hgo.2
          rw [runSteps_append, ← ee pf st fuel hf]
          simp only [rangeLoop, hd, hgo.1, hh, if_true, Bool.false_eq_true, if_false]
          congr 1
          funext st1
          exact er pf st1 fuel hf
      · refine ⟨sr, ?_, ?_⟩
        · rw [List.flatMap_cons, expectedOf_isDir _ _ _ hd, if_neg hgo, List.nil_append]
          exact pr
        · intro pf st fuel hf
          rw [← er pf st fuel hf]
          by_cases hr : cfg.recursive = true
          · have hh : HasPrefix fi.Name (bytesOf ".") = true := by
              cases h : hidden fi.Name with
              | true => exact h
              | false => exact absurd ⟨hr, h⟩ hgo
            simp only [rangeLoop, hd, hr, hh, if_true]
          · simp only [rangeLoop, hd, hr, if_true, Bool.false_eq_true, if_false]

theorem processDirWith_steps (cfg : Config) (sortFn : List Entry → List Entry)
    (hsort : ∀ l, (sortFn l).Perm l) (n : Nat) :
    ∀ (root : Bytes) (listing : Except GoError (List Entry)), depthIn (listed listing) ≤ n →
      ∃ steps : List Step,
        (stepFiles steps).Perm (expectedCalls cfg.recursive root (listed listing)) ∧
        ∀ (pf : State → Bytes → Bytes → Outcome) (st : State) (fuel : Nat), n < fuel →
          processDirWith cfg sortFn pf fuel root listing st = runSteps cfg pf steps st := by
  induction n using Nat.strongRecOn with
  | _ n ih =>
    intro root listing hd
    cases listing with
    | error e =>
      refine ⟨[.enter root, .abort e], List.Perm.refl _, ?_⟩
      intro pf st fuel hf
      obtain ⟨f, rfl⟩ : ∃ f, fuel = f + 1 := ⟨fuel - 1, by omega⟩
      rfl
    | ok entries =>
      have hd2 : depthIn entries ≤ n := hd
      have hsub : ∀ fi ∈ sortFn entries, fi.IsDir = true → ∃ steps : List Step,
          (stepFiles steps).Perm
            (expectedCalls cfg.recursive (Join root fi.Name) (listed fi.ReadDir)) ∧
          ∀ (pf : State → Bytes → Bytes → Outcome) (st : State) (fuel : Nat), n ≤ fuel →
            processDirWith cfg sortFn pf fuel (Join root fi.Name) fi.ReadDir st
              = runSteps cfg pf steps st := by
        intro fi hm hdir
        have hm2 : fi ∈ entries := (hsort entries).mem_iff.mp hm
        have h1 := depthOf_le_depthIn entries _ hm2
        have h2 := depthOf_isDir fi hdir
        obtain ⟨steps, ps, es2⟩ :=
          ih (depthIn (listed fi.ReadDir)) (by omega) (Join root fi.Name) fi.ReadDir (le_refl _)
        exact ⟨steps, ps, fun pf st fuel hf => es2 pf st fuel (by omega)⟩
      obtain ⟨sl, pl, el⟩ := rangeLoop_steps cfg sortFn root n (sortFn entries) hsub
      refine ⟨.enter root :: sl, ?_, ?_⟩
      · show (stepFiles sl).Perm (expectedCalls cfg.recursive root entries)
        rw [expectedCalls_flatMap]
        exact pl.trans (List.Perm.flatMap_right _ (hsort entries))
      · intro pf st fuel hf
        obtain ⟨f, rfl⟩ : ∃ f, fuel = f + 1 := ⟨fuel - 1, by omega⟩
        exact el pf _ f (by omega)

theorem insertLeft_perm (x : Entry) (l : List Entry) : (insertLeft x l).Perm (x :: l) := by
  induction l with
  | nil => exact List.Perm.refl _
  | cons y l ih =>
    simp only [insertLeft]
    split
    · exact (List.Perm.cons y ih).trans (List.Perm.swap x y l)
    · exact List.Perm.refl _

theorem insertionSort_perm (left l : List Entry) :
    (insertionSort left l).Perm (left ++ l) := by
  induction l generalizing left with
  | nil => simp [insertionSort]
  | cons x l ih =>
    simp only [insertionSort]
    refine (ih _).trans ?_
    refine (List.Perm.append_right l (insertLeft_perm x left)).trans ?_
    simpa using (@List.perm_middle _ x left l).symm

theorem sortSort_perm (l : List Entry) : (sortSort l).Perm l := by
  simpa [sortSort] using insertionSort_perm [] l

/-- C9 as stated fails. The directory `d` lists the regular files `e.txt`
(empty) and `z.txt` (`"a\r\n"`), both directly in the root; `processDir` ends in
`log.Fatal` at `e.txt`, and `z.txt` is never processed: its bytes stay, no
temporary file is created, `changed` stays 0, although `processFile` on `z.txt`
would have replaced it. And an entry that is not a regular file (a symbolic
link) is passed to `processFile` like any other non-directory. -/
theorem later_file_not_processed :
    (bytesOf "d", bytesOf "z.txt") ∈ expectedCalls false (bytesOf "d") twoEntries ∧
    (processDir cfgLF env0 1 (bytesOf "d") (.ok twoEntries) (start twoFiles)).view
        (bytesOf "d/z.txt")
      = (false, some (some (bytesOf "a\r\n")), some 0) ∧
    (processDir cfgLF env0 1 (bytesOf "d") (.ok twoEntries) (start twoFiles)).state?.map
        (fun st => st.ops) = some [] ∧
    (processFile cfgLF env0 (start twoFiles) (bytesOf "d") (bytesOf "z.txt")).view
        (bytesOf "d/z.txt")
      = (true, some (some (bytesOf "a\n")), some 1) ∧
    (processDirWith cfgLF sortSort notePath 1 (bytesOf "d") (.ok [.special (bytesOf "link")])
        (start twoFiles)).state?.map (fun st => st.stdout)
      = some [.skipped (bytesOf "d/link")] := by
  refine ⟨by decide, by decide, by decide, by decide, by decide⟩

/-- C9 (as amended): for every directory tree (`ReadDir` may fail on some
directories) and every sort that permutes the entries there is a fixed sequence
of steps whose calls of `processFile` are, up to order, exactly one per
non-directory entry (regular file or not) that may be reached: with the
recursion flag those with no hidden directory on the way from the root, without
it those of the root directory. `processDir`, given one level of recursion per
directory level, carries out these steps in order until a call of `processFile`
or a `ReadDir` ends the process: the calls made are an initial part of the
sequence, and all of it when the run returns. The same holds of the program's
`processDir` with `processFile` and the library's insertion sort. -/
theorem processDir_calls (cfg : Config) (sortFn : List Entry → List Entry)
    (hsort : ∀ l, (sortFn l).Perm l) (root : Bytes)
    (listing : Except GoError (List Entry)) :
    (∃ steps : List Step,
      (stepFiles steps).Perm
        (((filesIn (listed listing)).filter (allowed cfg.recursive)).map
          fun f => (joinAll root f.1, f.2)) ∧
      ∀ (pf : State → Bytes → Bytes → Outcome) (st : State),
        (∀ fuel : Nat, depthIn (listed listing) < fuel →
          processDirWith cfg sortFn pf fuel root listing st = runSteps cfg pf steps st) ∧
        callsMade cfg pf steps st <+: stepFiles steps ∧
        ((runSteps cfg pf steps st).returned = true →
          callsMade cfg pf steps st = stepFiles steps)) ∧
    (∃ steps : List Step,
      (stepFiles steps).Perm
        (((filesIn (listed listing)).filter (allowed cfg.recursive)).map
          fun f => (joinAll root f.1, f.2)) ∧
      ∀ (env : Env) (st : State),
        (∀ fuel : Nat, depthIn (listed listing) < fuel →
          processDir cfg env fuel root listing st
            = runSteps cfg (processFile cfg env) steps st) ∧
        callsMade cfg (processFile cfg env) steps st <+: stepFiles steps ∧
        ((runSteps cfg (processFile cfg env) steps st).returned = true →
          callsMade cfg (processFile cfg env) steps st = stepFiles steps)) := by
  constructor
  · obtain ⟨steps, ps, es⟩ :=
      processDirWith_steps cfg sortFn hsort (depthIn (listed listing)) root listing (le_refl _)
    exact ⟨steps, ps, fun pf st => ⟨fun fuel hf => es pf st fuel hf,
      callsMade_prefix cfg pf steps st, callsMade_returned cfg pf steps st⟩⟩
  · obtain ⟨steps, ps, es⟩ :=
      processDirWith_steps cfg sortSort sortSort_perm (depthIn (listed listing)) root listing
        (le_refl _)
    exact ⟨steps, ps, fun env st => ⟨fun fuel hf => es (processFile cfg env) st fuel hf,
      callsMade_prefix cfg _ steps st, callsMade_returned cfg _ steps st⟩⟩

/-- C9 (as amended), at a tree with hidden directories and a symbolic link, with
the recursion flag and the library's insertion sort: `b.txt`, `link`, `a.txt`
and `src/main.go` are in the sequence, the files under `.git` and `src/.cache`
are not. -/
theorem processDir_calls_witness :
    (∀ l, (sortSort l).Perm l) ∧
    ∃ steps : List Step,
      (stepFiles steps).Perm
        [(bytesOf "d", bytesOf "b.txt"), (bytesOf "d/src", bytesOf "main.go"),
          (bytesOf "d", bytesOf "link"), (bytesOf "d", bytesOf "a.txt")] ∧
      ∀ (env : Env) (st : State),
        (∀ fuel : Nat, depthIn sampleTree < fuel →
          processDir cfgRec env fuel (bytesOf "d") (.ok sampleTree) st
            = runSteps cfgRec (processFile cfgRec env) steps st) ∧
        callsMade cfgRec (processFile cfgRec env) steps st <+: stepFiles steps ∧
        ((runSteps cfgRec (processFile cfgRec env) steps st).returned = true →
          callsMade cfgRec (processFile cfgRec env) steps st = stepFiles steps) :=
  ⟨sortSort_perm,
    (processDir_calls cfgRec sortSort sortSort_perm (bytesOf "d") (.ok sampleTree)).2⟩

end Cheol
